import Mathlib

/-!
Verification development for the allxfr DNS zone-transfer harvester.

Shallow embedding of the program's data model and operations, translated
from the Go source:
  * `save/savezone.go`, `save/misc.go` — the zonefile writer,
  * `axfr.go` — transfer retry logic and error classification,
  * `resolver/resolver.go` — result merging, TTL calculation, RTT sorting,
  * `resolver/cache.go` — the LRU cache,
  * `status/status.go` — the status aggregator,
  * `zone/zone.go` — the zone model.

Machine integers that can realistically wrap (the `uint32` counters of the
status aggregator) are modelled as `Nat` with explicit `% 2^32`; `int64`
counters that are only ever incremented a bounded number of times per run
are modelled as `Int`.  I/O failures of the operating system are not
modelled: each file operation is recorded as an effect and assumed to
succeed, which is the path every claim under study speaks about.
Wall-clock time is passed explicitly as a `Nat` parameter where the code
reads `time.Now()`.
-/

set_option maxHeartbeats 1000000

namespace Allxfr

/-! ### Go `net.IP` (subset of net/ip.go used by the program)

An IP is a byte slice (length 4 or 16 in practice). -/

/-- Go `net.IP.To4`: the 4-byte form, when the address is IPv4 or an
IPv4-mapped IPv6 address (10 zero bytes, then 0xff 0xff). -/
def ipTo4 (ip : List Nat) : Option (List Nat) :=
  if ip.length = 4 then some ip
  else if ip.length = 16 ∧ ((ip.take 10).all (fun b => b == 0)) ∧
      ip.getD 10 0 = 255 ∧ ip.getD 11 0 = 255 then
    some (ip.drop 12)
  else none

/-- One lowercase hex digit, as in Go's `hexDigit` table. -/
def hexDigit (n : Nat) : String :=
  (["0", "1", "2", "3", "4", "5", "6", "7", "8", "9",
    "a", "b", "c", "d", "e", "f"]).getD n "0"

def hexNatAux : Nat → Nat → String → String
  | 0, _, acc => acc
  | fuel + 1, n, acc =>
    if n = 0 then acc else hexNatAux fuel (n / 16) (hexDigit (n % 16) ++ acc)

/-- Lowercase hex rendering of a group without leading zeros
(Go's `appendHex`). -/
def hexNat (n : Nat) : String :=
  if n = 0 then "0" else hexNatAux (n + 1) n ""

/-- Group the 16 bytes of an IPv6 address into eight 16-bit groups. -/
def ipGroups : List Nat → List Nat
  | b0 :: b1 :: rest => (b0 * 256 + b1) :: ipGroups rest
  | _ => []

/-- Length of the run of zero groups at the front of the list. -/
def zeroRunLen : List Nat → Nat
  | 0 :: rest => 1 + zeroRunLen rest
  | _ => 0

/-- Go's longest-zero-run search in `net.IP.String` (group units; Go works
in byte units, two bytes per group, which yields the same pair).  Strict
improvement only, so the leftmost longest run wins; runs of a single group
are discarded at the end. -/
def findZeroRunAux (gs : List Nat) : Nat → Nat → Int → Int → Int × Int
  | 0, _, e0, e1 => (e0, e1)
  | fuel + 1, i, e0, e1 =>
    if i ≥ 8 then (e0, e1)
    else
      let j := i + zeroRunLen (gs.drop i)
      if j > i ∧ (j : Int) - (i : Int) > e1 - e0 then
        findZeroRunAux gs fuel j (i : Int) (j : Int)
      else
        findZeroRunAux gs fuel (i + 1) e0 e1

def findZeroRun (gs : List Nat) : Int × Int :=
  let (e0, e1) := findZeroRunAux gs 16 0 (-1) (-1)
  if e1 - e0 ≤ 1 then (-1, -1) else (e0, e1)

/-- The rendering loop of Go's `net.IP.String` for plain IPv6 addresses. -/
def v6Aux (gs : List Nat) (e0 e1 : Int) : Nat → Nat → String → String
  | 0, _, acc => acc
  | fuel + 1, g, acc =>
    if g ≥ 8 then acc
    else if (g : Int) = e0 then
      let acc := acc ++ "::"
      let g2 := e1.toNat
      if g2 ≥ 8 then acc
      else v6Aux gs e0 e1 fuel (g2 + 1) (acc ++ hexNat (gs.getD g2 0))
    else
      let acc := if g > 0 then acc ++ ":" else acc
      v6Aux gs e0 e1 fuel (g + 1) (acc ++ hexNat (gs.getD g 0))

/-- Go `net.IP.String`: empty → `<nil>`; 4-byte forms (via `To4`) →
dotted quad; 16-byte → RFC 5952 text; other lengths → `?` + raw hex. -/
def ipGoString (ip : List Nat) : String :=
  if ip.isEmpty then "<nil>"
  else
    match ipTo4 ip with
    | some p4 => String.intercalate "." (p4.map toString)
    | none =>
      if ip.length ≠ 16 then
        "?" ++ String.join (ip.map (fun b => hexDigit (b / 16) ++ hexDigit (b % 16)))
      else
        let gs := ipGroups ip
        let (e0, e1) := findZeroRun gs
        v6Aux gs e0 e1 16 0 ""

/-! ### DNS resource records (the fragment of miekg/dns the program reads)

The program inspects: the presentation text `rr.String()`, the header TTL,
AAAA payloads (for the IPv4-mapped rewrite) and SOA `Minttl`.  Everything
else about a record is opaque, so a record is one of:
  * an AAAA record, with owner-name header data, TTL and address bytes;
  * an SOA record, with its presentation text, TTL and MINIMUM field;
  * any other record, with its presentation text and TTL. -/
inductive RR where
  | aaaa (name : String) (ttl : Nat) (ip : List Nat)
  | soa (text : String) (ttl : Nat) (minttl : Nat)
  | other (text : String) (ttl : Nat)
deriving DecidableEq, Repr

/-- miekg/dns `RR_Header.String()`: `name\tttl\tclass\ttype\t`. -/
def aaaaHdrString (name : String) (ttl : Nat) : String :=
  name ++ "\t" ++ toString ttl ++ "\tIN\tAAAA\t"

/-- miekg/dns `rr.String()`.  For AAAA this is the header text followed by
`net.IP.String()` of the address — which renders an IPv4-mapped address as
a plain dotted quad (miekg/dns issue 1107). -/
def rrStringGo : RR → String
  | .aaaa name ttl ip => aaaaHdrString name ttl ++ ipGoString ip
  | .soa text _ _ => text
  | .other text _ => text

/-- `Header().Ttl`. -/
def rrTTL : RR → Nat
  | .aaaa _ ttl _ => ttl
  | .soa _ ttl _ => ttl
  | .other _ ttl => ttl

/-- `save/misc.go` `RRString`: AAAA records whose address passes `To4` are
rendered with an explicit `::ffff:` before the (dotted-quad) address
text; every other record uses `rr.String()`. -/
def saveRRString (rr : RR) : String :=
  match rr with
  | .aaaa name ttl ip =>
    let ipStr := ipGoString ip
    let ipStr := if (ipTo4 ip).isSome then "::ffff:" ++ ipStr else ipStr
    aaaaHdrString name ttl ++ ipStr
  | _ => rrStringGo rr

/-! ### Zonefile writer (`save/savezone.go`)

The three writer layers (buffered writer over gzip over the file) are
modelled by a single list of written fragments plus an effect trace for
the flush/close/rename steps of `Finish`. -/

structure SaveFile where
  filename : String
  filenameTmp : String
  zone : String
  /-- Whether `bufWriter != nil`, i.e. the temp file has been created. -/
  opened : Bool
  /-- Fragments written to the buffered writer since creation, in order. -/
  content : List String
  records : Int
  closed : Bool
  pendingWrites : List String
deriving DecidableEq, Repr

inductive FinEffect where
  | flushBuf
  | flushGz
  | closeGz
  | closeFile
  | rename (src dst : String)
  | remove (p : String)
deriving DecidableEq, Repr

/-- `save.New`: the file is not created yet. -/
def saveNew (zone filename : String) : SaveFile :=
  { filename := filename
    filenameTmp := filename ++ ".tmp"
    zone := zone
    opened := false
    content := []
    records := 0
    closed := false
    pendingWrites := [] }

/-- `ErrFileClosed` and the two error-shaped outcomes the writer can give.
Only `ErrFileClosed` is reachable in the happy-path model. -/
inductive SaveErr where
  | errFileClosed
deriving DecidableEq, Repr

/-- `WriteComment`: buffered before the file exists, direct afterwards. -/
def writeComment (f : SaveFile) (comment : String) : SaveFile × Option SaveErr :=
  if f.closed then (f, some .errFileClosed)
  else if ¬ f.opened then
    ({ f with pendingWrites := f.pendingWrites ++ ["; " ++ comment] }, none)
  else
    ({ f with content := f.content ++ ["; " ++ comment] }, none)

/-- `WriteCommentKey`: `key: value\n` through `WriteComment`. -/
def writeCommentKey (f : SaveFile) (key value : String) : SaveFile × Option SaveErr :=
  writeComment f (key ++ ": " ++ value ++ "\n")

/-- `fileReady`: on first use, create the temp file, write the timestamp
and zone metadata comments and replay the buffered comments.  `ts` stands
for the `time.Now()` text. -/
def fileReady (f : SaveFile) (ts : String) : SaveFile × Option SaveErr :=
  if f.closed then (f, some .errFileClosed)
  else if f.opened then (f, none)
  else
    ({ f with
        opened := true
        content := ["; timestamp: " ++ ts ++ "\n", "; zone: " ++ f.zone ++ "\n"]
          ++ f.pendingWrites
        pendingWrites := [] }, none)

/-- `AddRR`: ensure the file exists, then write `rr.String()` plus a
newline and count the record.  (Note: the source calls `rr.String()`, not
the package's own `RRString`.) -/
def addRR (f : SaveFile) (ts : String) (rr : RR) : SaveFile × Option SaveErr :=
  match fileReady f ts with
  | (_, some e) => (f, some e)
  | (f, none) =>
    ({ f with content := f.content ++ [rrStringGo rr ++ "\n"]
              records := f.records + 1 }, none)

/-- `Finish`: happy path of the source (every flush/close/rename call is
recorded as an effect and assumed to succeed). -/
def finish (f : SaveFile) : SaveFile × List FinEffect :=
  if f.closed then (f, [])
  else if ¬ f.opened then ({ f with closed := true }, [])
  else
    let f :=
      if f.records > 1 then
        (writeCommentKey f "records" (toString f.records)).1
      else f
    let effs := [FinEffect.flushBuf, FinEffect.flushGz,
                 FinEffect.closeGz, FinEffect.closeFile]
    let effs := effs ++
      [if f.records > 0 then FinEffect.rename f.filenameTmp f.filename
       else FinEffect.remove f.filenameTmp]
    ({ f with closed := true }, effs)

/-- `Abort`: zero the record count, then `Finish`. -/
def abortFile (f : SaveFile) : SaveFile × List FinEffect :=
  finish { f with records := 0 }

/-! ### Transfer engine (`axfr.go`)

Go errors are finite trees: a sentinel (`ErrAxfrUnsupported`) or an error
value with a message and the list of errors it wraps (`fmt.Errorf` with
`%w` verbs).  `errors.Is` against the sentinel walks the wrap tree. -/

inductive GoErr where
  | axfrUnsupported
  | mk (msg : String) (wrapped : List GoErr)

/-- `err.Error()`.  The sentinel's text is its `errors.New` message. -/
def errString : GoErr → String
  | .axfrUnsupported => "AXFR Unsupported"
  | .mk msg _ => msg

/-- `errors.Is(err, ErrAxfrUnsupported)`. -/
def goIsAxfrUnsupported : GoErr → Bool
  | .axfrUnsupported => true
  | .mk _ [] => false
  | .mk m (w :: ws) => goIsAxfrUnsupported w || goIsAxfrUnsupported (.mk m ws)

/-- `ErrorAxfrUnsupportedWrap`: the textual rcode-5 / rcode-9 match.  The
Go code computes `errStr` once and tests it twice, so at most one branch
fires. -/
def errorAxfrUnsupportedWrap (err : GoErr) : GoErr :=
  let errStr := errString err
  let err :=
    if errStr = "dns: bad xfr rcode: 5" then
      GoErr.mk ("AXFR Unsupported \x27Refused\x27: " ++ errStr)
        [.axfrUnsupported, err]
    else err
  let err :=
    if errStr = "dns: bad xfr rcode: 9" then
      GoErr.mk ("AXFR Unsupported \x27Not Authorized\x27: " ++ errStr)
        [.axfrUnsupported, err]
    else err
  err

/-- One DNS envelope of the transfer stream. -/
structure Envelope where
  err : Option GoErr
  rrs : List RR

/-- Outcome of `InContext`: either the dial fails, or a stream of
envelopes is delivered (context cancellation is not modelled: the runs
under study are uncancelled). -/
inductive ConnectResult where
  | connErr (e : GoErr)
  | connOk (envs : List Envelope)

/-- `dns.Fqdn`. -/
def fqdn (s : String) : String :=
  if s.endsWith "." then s else s ++ "."

structure XfrFlags where
  ixfr : Bool
  dryRun : Bool
  saveAll : Bool
  overwrite : Bool
deriving DecidableEq, Repr

/-- The error built for a failing envelope in `axfrToFile`
(`fmt.Errorf("transfer envelope error from zone: %s ip: %s (rec: %d,
envelope: %d): %w", ...)`). -/
def envelopeErrWrap (zone ipStr : String) (records envelope : Int)
    (inner : GoErr) : GoErr :=
  .mk ("transfer envelope error from zone: " ++ zone ++ " ip: " ++ ipStr
      ++ " (rec: " ++ toString records ++ ", envelope: " ++ toString envelope
      ++ "): " ++ errString inner) [inner]

/-- `AddRR` over a whole envelope (the per-record error path is
unreachable in the happy-path model: the writer is never closed here). -/
def addRRList (zf : SaveFile) (ts : String) : List RR → SaveFile
  | [] => zf
  | rr :: rest => addRRList (addRR zf ts rr).1 ts rest

/-- The envelope loop of `axfrToFile`: returns the writer state, the
envelope count, the error and the function's return value. -/
def envLoop (ts zone ipStr : String) (dryRun : Bool) :
    List Envelope → SaveFile → Int → SaveFile × Int × Option GoErr × Int
  | [], zf, envCount => (zf, envCount, none, zf.records)
  | e :: rest, zf, envCount =>
    match e.err with
    | some ee =>
      let w := envelopeErrWrap zone ipStr zf.records envCount
        (errorAxfrUnsupportedWrap ee)
      (zf, envCount, some w, zf.records)
    | none =>
      if dryRun ∧ 0 < e.rrs.length then (zf, envCount, none, (e.rrs.length : Int))
      else envLoop ts zone ipStr dryRun rest (addRRList zf ts e.rrs) (envCount + 1)

/-- Result of `axfrToFile`: the returned record count, the returned
error, and the writer (with the effects of its deferred `Finish`) when
one was constructed. -/
structure XfrResult where
  ret : Int
  err : Option GoErr
  file : Option (SaveFile × List FinEffect)

/-- Whether `axfrToFile` created a file on disk: a writer was
constructed and its lazy creation fired. -/
def XfrResult.fileCreated (r : XfrResult) : Bool :=
  match r.file with
  | some (zf, _) => zf.opened
  | none => false

/-- `axfrToFile` (src/axfr.go): dial, choose filename, stream envelopes
into a writer, finalize via the deferred `envelopes` comment + `Finish`.
A dial error is swallowed: the verbose log is emitted and `(0, nil)` is
returned with no writer ever constructed. -/
def axfrToFile (ts saveDir zone nameserver : String) (ip : List Nat)
    (flags : XfrFlags) (fileExists : Bool) (conn : ConnectResult) : XfrResult :=
  let zone := fqdn zone
  match conn with
  | .connErr _ => ⟨0, none, none⟩
  | .connOk envs =>
    let filename :=
      if flags.saveAll then
        saveDir ++ "/" ++ zone ++ "_" ++ nameserver ++ "_" ++ ipGoString ip
          ++ "_zone.gz"
      else
        saveDir ++ "/" ++ zone.dropRight 1 ++ ".zone.gz"
    if ¬ flags.overwrite ∧ fileExists then ⟨-1, none, none⟩
    else
      let zf := saveNew zone filename
      let zf := (writeComment zf
        "Generated by ALLXFR (https://github.com/lanrat/allxfr)\n").1
      let zf := (writeCommentKey zf "nameserver" nameserver).1
      let zf := (writeCommentKey zf "nameserverIP" (ipGoString ip)).1
      let zf := (writeCommentKey zf "xfr" (if flags.ixfr then "IXFR" else "AXFR")).1
      let r := envLoop ts zone (ipGoString ip) flags.dryRun envs zf 0
      let zf := (writeCommentKey r.1 "envelopes" (toString r.2.1)).1
      let (zf, effs) := finish zf
      ⟨r.2.2.2, r.2.2.1, some (zf, effs)⟩

/-- The retry loop of `axfrRetry`, parametrized by what `axfr` returns at
each try (the environment of each attempt).  Carries Go's loop-external
`records`, `err` and `anySuccess` variables and counts the tries made.
The 1-second inter-try sleep and context cancellation are not modelled
(uncancelled runs). -/
def axfrRetryLoop (att : Nat → Int × Option GoErr) :
    Nat → Nat → Int → Option GoErr → Bool → Bool × Int × Option GoErr × Nat
  | 0, t, records, err, anySuccess => (anySuccess, records, err, t)
  | fuel + 1, t, _, _, anySuccess =>
    let (r, e) := att t
    match e with
    | some e2 =>
      if goIsAxfrUnsupported e2 then (anySuccess, r, none, t + 1)
      else axfrRetryLoop att fuel (t + 1) r (some e2) anySuccess
    | none =>
      if r ≠ 0 then (true, r, none, t + 1)
      else axfrRetryLoop att fuel (t + 1) r none anySuccess

/-- `axfrRetry`: run the loop over up to `retry` tries, then apply the
tail returns.  Yields `(anySuccess, returned error, tries made)`. -/
def axfrRetry (att : Nat → Int × Option GoErr) (retry : Nat)
    (saveAll : Bool) : Bool × Option GoErr × Nat :=
  let r := axfrRetryLoop att retry 0 0 none false
  if ¬ saveAll ∧ r.2.1 ≠ 0 then (r.1, none, r.2.2.2)
  else (r.1, r.2.2.1, r.2.2.2)

/-! ### Resolver results and merging (`resolver/resolver.go`) -/

def rcodeSuccess : Nat := 0
def rcodeServerFailure : Nat := 2
def rcodeNameError : Nat := 3

structure Result where
  answer : List RR
  authority : List RR
  additional : List RR
  rcode : Nat
  authoritative : Bool
deriving DecidableEq, Repr

/-- Appending one section while recording every record's presentation
text in the shared `rrSeen` set (Go iterates the section in order, skips
records whose text was seen, and marks the text). -/
def dedupAppend (seen : List String) (acc : List RR) :
    List RR → List String × List RR
  | [] => (seen, acc)
  | rr :: rest =>
    let key := rrStringGo rr
    if seen.contains key then dedupAppend seen acc rest
    else dedupAppend (key :: seen) (acc ++ [rr]) rest

/-- Merging one (non-nil) result into the accumulator, threading the
shared `rrSeen` set through Answer, then Authority, then Additional. -/
def mergeOne (merged : Result) (seen : List String) (r : Result) :
    Result × List String :=
  let merged :=
    if r.rcode = rcodeSuccess then { merged with rcode := rcodeSuccess }
    else if merged.rcode = rcodeServerFailure ∧ r.rcode = rcodeNameError then
      { merged with rcode := rcodeNameError }
    else merged
  let merged :=
    if r.authoritative then { merged with authoritative := true } else merged
  let (seen, ans) := dedupAppend seen merged.answer r.answer
  let (seen, auth) := dedupAppend seen merged.authority r.authority
  let (seen, add) := dedupAppend seen merged.additional r.additional
  ({ merged with answer := ans, authority := auth, additional := add }, seen)

def mergeAll : List (Option Result) → Result → List String → Result
  | [], merged, _ => merged
  | none :: rest, merged, seen => mergeAll rest merged seen
  | some r :: rest, merged, seen =>
    let p := mergeOne merged seen r
    mergeAll rest p.1 p.2

/-- `mergeResults`: nil on the empty list, otherwise a fold starting from
SERVFAIL / non-authoritative / empty sections, with one `rrSeen` set
shared across all sections of all results. -/
def mergeResults (results : List (Option Result)) : Option Result :=
  if results.isEmpty then none
  else some (mergeAll results
    { answer := [], authority := [], additional := [],
      rcode := rcodeServerFailure, authoritative := false } [])

/-- The accumulator `mergeResults` starts from: SERVFAIL,
non-authoritative, empty sections. -/
def mergeInit : Result :=
  { answer := [], authority := [], additional := [],
    rcode := rcodeServerFailure, authoritative := false }

/-! ### TTL calculation (`resolver/resolver.go` `calculateTTL`)

Durations are modelled in seconds (the function returns whole seconds:
`time.Duration(minTTL) * time.Second`, or 5 minutes = 300 s). -/

def calcAnswerScan : List RR → Nat → Nat
  | [], m => m
  | rr :: rest, m => calcAnswerScan rest (if rrTTL rr < m then rrTTL rr else m)

def calcAuthorityScan (nx : Bool) : List RR → Nat → Nat
  | [], m => m
  | rr :: rest, m =>
    let m := if rrTTL rr < m then rrTTL rr else m
    let m :=
      if nx then
        match rr with
        | .soa _ _ minttl => if minttl < m then minttl else m
        | _ => m
      else m
    calcAuthorityScan nx rest m

/-- `calculateTTL`: minimum over Answer and Authority TTLs starting from
a 3600 ceiling, plus SOA MINIMUM on NXDOMAIN; 300 s when both sections
are empty; floored at 60 s; 0 for a nil result. -/
def calculateTTL (r : Option Result) : Nat :=
  match r with
  | none => 0
  | some result =>
    let m := calcAnswerScan result.answer 3600
    let m := calcAuthorityScan (result.rcode = rcodeNameError) result.authority m
    if m = 3600 ∧ result.answer.length = 0 ∧ result.authority.length = 0 then 300
    else if m < 60 then 60 else m

/-! ### RTT ranking (`resolver/resolver.go` `sortNameserversByRTT`)

Times are in nanoseconds (`time.Duration` / `time.Time` ticks). -/

def second : Nat := 1000000000

def maxFailures : Nat := 5

def circuitBreakerTTL : Nat := 60 * second

structure RttStats where
  avgRTT : Nat
  samples : Nat
  lastSeen : Nat
  failures : Nat
  lastFailed : Nat
deriving DecidableEq, Repr

structure NsWithRTT where
  ns : String
  rtt : Nat
  failures : Nat
  hasStat : Bool
  circuitOpen : Bool
deriving DecidableEq, Repr

def lookupStats (m : List (String × RttStats)) (ns : String) : Option RttStats :=
  match m.find? (fun p => p.1 == ns) with
  | some p => some p.2
  | none => none

/-- Building the per-endpoint sort record, including the circuit-breaker
test (`failures ≥ maxFailures && now − lastFailed < circuitBreakerTTL`). -/
def mkNsStat (m : List (String × RttStats)) (now : Nat) (ns : String) : NsWithRTT :=
  match lookupStats m ns with
  | none => ⟨ns, 0, 0, false, false⟩
  | some st =>
    let co := decide (st.failures ≥ maxFailures ∧
      (now : Int) - (st.lastFailed : Int) < (circuitBreakerTTL : Int))
    ⟨ns, st.avgRTT, st.failures, true, co⟩

/-- The swap condition of the nested comparison loop, read off the
if/continue chain of the source. -/
def shouldSwap (x y : NsWithRTT) : Bool :=
  if x.circuitOpen && !y.circuitOpen then true
  else if !x.circuitOpen && y.circuitOpen then false
  else if decide (x.failures > y.failures) then true
  else if decide (x.failures < y.failures) then false
  else if !x.hasStat && y.hasStat then true
  else if x.hasStat && !y.hasStat then false
  else x.hasStat && y.hasStat && decide (x.rtt > y.rtt)

/-- In-place swap of two positions of a list. -/
def swapIdx (l : List α) (i j : Nat) (d : α) : List α :=
  let x := l.getD i d
  let y := l.getD j d
  (l.set i y).set j x

/-- The inner loop `for j := i+1; j < len; j++` with its conditional
swap. -/
def selInner (sw : α → α → Bool) (d : α) : Nat → List α → Nat → Nat → List α
  | 0, l, _, _ => l
  | fuel + 1, l, i, j =>
    if j < l.length then
      let l2 := if sw (l.getD i d) (l.getD j d) then swapIdx l i j d else l
      selInner sw d fuel l2 i (j + 1)
    else l

/-- The outer loop `for i := 0; i < len-1; i++`. -/
def selOuter (sw : α → α → Bool) (d : α) : Nat → List α → Nat → List α
  | 0, l, _ => l
  | fuel + 1, l, i =>
    if i + 1 < l.length then
      selOuter sw d fuel (selInner sw d l.length l i (i + 1)) (i + 1)
    else l

def nsDefault : NsWithRTT := ⟨"", 0, 0, false, false⟩

/-- `sortNameserversByRTT`: build the stat records against a snapshot of
the RTT map, run the comparison-and-swap loops, project the names. -/
def sortNameserversByRTT (m : List (String × RttStats)) (now : Nat)
    (nameservers : List String) : List String :=
  if nameservers.length ≤ 1 then nameservers
  else
    let nsStats := nameservers.map (mkNsStat m now)
    let sorted := selOuter shouldSwap nsDefault nsStats.length nsStats 0
    sorted.map (fun s => s.ns)

/-! ### LRU cache (`resolver/cache.go`)

The map plus doubly-linked list is one ordered finite map; it is modelled
as an association list in recency order, head = most recently used.
`expiry` is an `Int` instant (a put with negative TTL is representable),
`now` a `Nat` instant in the same clock. -/

structure CEntry (α : Type) where
  res : α
  expiry : Int
  lastUsed : Nat
  negative : Bool
deriving DecidableEq, Repr

structure DnsCache (α : Type) where
  capacity : Nat
  entries : List (String × CEntry α)
deriving DecidableEq, Repr

def defaultCacheSize : Nat := 1000

/-- `newDNSCache` (non-positive capacities fall back to the default). -/
def newDNSCache (α : Type) (capacity : Int) : DnsCache α :=
  { capacity := if capacity ≤ 0 then defaultCacheSize else capacity.toNat
    entries := [] }

def cacheFind (c : DnsCache α) (k : String) : Option (CEntry α) :=
  match c.entries.find? (fun p => p.1 == k) with
  | some p => some p.2
  | none => none

def cacheEraseKey (l : List (String × CEntry α)) (k : String) :
    List (String × CEntry α) :=
  l.eraseP (fun p => p.1 == k)

/-- `get`: miss on absent key; expired entries (strictly past `expiry`)
are unlinked and reported as a miss; a hit refreshes `lastUsed` and moves
the node to the head. -/
def cacheGet (c : DnsCache α) (k : String) (now : Nat) :
    Option α × DnsCache α :=
  match cacheFind c k with
  | none => (none, c)
  | some e =>
    if (now : Int) > e.expiry then
      (none, { c with entries := cacheEraseKey c.entries k })
    else
      (some e.res,
       { c with entries := (k, { e with lastUsed := now }) :: cacheEraseKey c.entries k })

/-- `putWithNegative`: replace-and-move-to-head on an existing key;
otherwise insert at head and evict the tail when over capacity. -/
def cachePutWithNegative (c : DnsCache α) (k : String) (res : α)
    (ttl : Int) (now : Nat) (negative : Bool) : DnsCache α :=
  let entry : CEntry α := ⟨res, (now : Int) + ttl, now, negative⟩
  match cacheFind c k with
  | some _ => { c with entries := (k, entry) :: cacheEraseKey c.entries k }
  | none =>
    let entries := (k, entry) :: c.entries
    if entries.length > c.capacity then { c with entries := entries.dropLast }
    else { c with entries := entries }

/-- One client operation on the cache, with its observation instant. -/
inductive CacheOp (α : Type) where
  | opGet (k : String) (now : Nat)
  | opPut (k : String) (res : α) (ttl : Int) (now : Nat) (negative : Bool)
deriving DecidableEq, Repr

/-- One step of a run.  Besides the new state it reports the keys this
operation touched (a put, or a get that hit) and whether the expiry
branch stayed untaken (`true` = nothing expired here). -/
def cacheStep (c : DnsCache α) : CacheOp α → DnsCache α × List String × Bool
  | .opGet k now =>
    match cacheFind c k with
    | none => (c, [], true)
    | some e =>
      if (now : Int) > e.expiry then ((cacheGet c k now).2, [], false)
      else ((cacheGet c k now).2, [k], true)
  | .opPut k res ttl now negative =>
    (cachePutWithNegative c k res ttl now negative, [k], true)

/-- Run a list of operations, accumulating the touch trace (in operation
order) and the conjunction of the no-expiry flags. -/
def cacheRun (c : DnsCache α) : List (CacheOp α) → DnsCache α × List String × Bool
  | [] => (c, [], true)
  | op :: rest =>
    let s := cacheStep c op
    let r := cacheRun s.1 rest
    (r.1, s.2.1 ++ r.2.1, s.2.2 && r.2.2)

/-- Keep the first occurrence of every element. -/
def dedupKeepFirst : List String → List String
  | [] => []
  | x :: xs => x :: (dedupKeepFirst xs).filter (fun y => y ≠ x)

/-- The distinct touched keys, most recently touched first. -/
def recentDistinct (trace : List String) : List String :=
  dedupKeepFirst trace.reverse

/-! ### Status aggregator (`status/status.go`)

The `uint32` counters wrap modulo 2^32; Go's decrement idiom
`AddUint32(&x, ^uint32(0))` adds 2^32 − 1. -/

def u32Mod : Nat := 4294967296

def u32 (n : Nat) : Nat := n % u32Mod

structure StatusState where
  totalZones : Nat
  completed : Nat
  failed : Nat
  activeCount : Nat
  active : List (String × Nat)
  recentFailed : List String
deriving DecidableEq, Repr

def statusNew : StatusState :=
  { totalZones := 0, completed := 0, failed := 0, activeCount := 0,
    active := [], recentFailed := [] }

def activeHas (s : StatusState) (zone : String) : Bool :=
  s.active.any (fun p => p.1 == zone)

def activeStore (l : List (String × Nat)) (zone : String) (now : Nat) :
    List (String × Nat) :=
  if l.any (fun p => p.1 == zone) then
    l.map (fun p => if p.1 == zone then (zone, now) else p)
  else l ++ [(zone, now)]

def activeDelete (l : List (String × Nat)) (zone : String) :
    List (String × Nat) :=
  l.eraseP (fun p => p.1 == zone)

/-- `StartTransfer`. -/
def startTransfer (s : StatusState) (zone : String) (now : Nat) : StatusState :=
  { s with active := activeStore s.active zone now
           activeCount := u32 (s.activeCount + 1) }

/-- `CompleteTransfer`: load-and-delete; only acts when the zone was
active. -/
def completeTransfer (s : StatusState) (zone : String) : StatusState :=
  if activeHas s zone then
    { s with active := activeDelete s.active zone
             activeCount := u32 (s.activeCount + (u32Mod - 1))
             completed := u32 (s.completed + 1) }
  else s

/-- `FailTransfer`: load-and-delete; on a counted failure append
`zone: reason` (just `zone` when the reason is empty) to the
recent-failures ring, dropping the oldest entry over capacity 10. -/
def failTransfer (s : StatusState) (zone reason : String) : StatusState :=
  if activeHas s zone then
    let failureEntry := if reason ≠ "" then zone ++ ": " ++ reason else zone
    let rf := s.recentFailed ++ [failureEntry]
    let rf := if rf.length > 10 then rf.drop 1 else rf
    { s with active := activeDelete s.active zone
             activeCount := u32 (s.activeCount + (u32Mod - 1))
             failed := u32 (s.failed + 1)
             recentFailed := rf }
  else s

/-! ### Zone model (`zone/zone.go`) -/

structure ZoneM where
  ns : List (String × List String)
  ip : List (String × List (List Nat))
  records : Int
deriving DecidableEq, Repr

def nsHas (z : ZoneM) (domain : String) : Bool :=
  z.ns.any (fun p => p.1 == domain)

def nsAppend (l : List (String × List String)) (domain v : String) :
    List (String × List String) :=
  l.map (fun p => if p.1 == domain then (p.1, p.2 ++ [v]) else p)

/-- `AddNS`: lower-case the domain, create its (possibly empty) entry,
and only when the nameserver is non-empty lower-case and append it and
count a record. -/
def addNS (z : ZoneM) (domain nameserver : String) : ZoneM :=
  let domain := domain.toLower
  let z := if nsHas z domain then z else { z with ns := z.ns ++ [(domain, [])] }
  if 0 < nameserver.length then
    let nameserver := nameserver.toLower
    { z with ns := nsAppend z.ns domain nameserver, records := z.records + 1 }
  else z

/-- The set of names `GetNameChan` emits: every key of `NS` except `"."`,
`"arpa."` and anything ending in `".arpa."` (order is Go map iteration
order, here the key-list order). -/
def getNameList (z : ZoneM) : List String :=
  (z.ns.map (fun p => p.1)).filter
    (fun d => ¬ (d = "." ∨ d = "arpa." ∨ d.endsWith ".arpa."))

/-- The TTL values `calculateTTL` scans: every Answer and Authority TTL,
plus SOA MINIMUM fields of the Authority section when the result is
NXDOMAIN (stated in the amended claim for C6). -/
def ttlCandidates (r : Result) : List Nat :=
  r.answer.map rrTTL ++
  r.authority.flatMap (fun rr =>
    rrTTL rr ::
      (if r.rcode = rcodeNameError then
        match rr with
        | .soa _ _ minttl => [minttl]
        | _ => []
      else []))

/-- All records of a result, in the section order `mergeResults`
processes them. -/
def allRRs (r : Result) : List RR := r.answer ++ r.authority ++ r.additional

/-- Whether some non-nil result in the list has the given rcode. -/
def anyRcode (results : List (Option Result)) (rc : Nat) : Bool :=
  results.any (fun o =>
    match o with
    | some r => r.rcode == rc
    | none => false)

/-- Whether some non-nil result in the list is authoritative. -/
def anyAuth (results : List (Option Result)) : Bool :=
  results.any (fun o =>
    match o with
    | some r => r.authoritative
    | none => false)

/-- The key column of the cache. -/
def keysOf {α : Type} (c : DnsCache α) : List String := c.entries.map Prod.fst

/-- The distinct keys inserted (put) by a sequence of cache operations. -/
def insertedKeys {α : Type} (ops : List (CacheOp α)) : List String :=
  dedupKeepFirst (ops.filterMap (fun op =>
    match op with
    | .opPut k _ _ _ _ => some k
    | _ => none))

/-- The sort key of an endpoint record: the swap condition of
`sortNameserversByRTT` orders records lexicographically by
(circuit open, failures, missing stats, average RTT). -/
def nsKey (x : NsWithRTT) : Nat × Nat × Nat × Nat :=
  (cond x.circuitOpen 1 0, x.failures, cond x.hasStat 0 1,
   cond x.hasStat x.rtt 0)

/-- Strict lexicographic order on quadruples of naturals. -/
def lexLt4 (a b : Nat × Nat × Nat × Nat) : Prop :=
  a.1 < b.1 ∨ (a.1 = b.1 ∧ (a.2.1 < b.2.1 ∨ (a.2.1 = b.2.1 ∧
    (a.2.2.1 < b.2.2.1 ∨ (a.2.2.1 = b.2.2.1 ∧ a.2.2.2 < b.2.2.2)))))

/-! ### Concrete sample inputs used by counterexamples and witnesses -/

/-- A result answering with the record `r`. -/
def sampleMergeA : Result :=
  { answer := [.other "r" 60], authority := [], additional := [],
    rcode := rcodeSuccess, authoritative := false }

/-- A result carrying the same record `r` in its Authority section. -/
def sampleMergeB : Result :=
  { answer := [], authority := [.other "r" 60], additional := [],
    rcode := rcodeSuccess, authoritative := false }

/-- A four-operation run on a capacity-2 cache touching three keys. -/
def sampleCacheOps : List (CacheOp Nat) :=
  [.opPut "k1" 1 100 0 false, .opPut "k2" 2 100 0 false,
   .opGet "k1" 0, .opPut "k3" 3 100 0 false]

/-- An RTT map with two healthy endpoints and one with an open circuit
(6 failures, failed at t = 100 ns). -/
def sampleRttMap : List (String × RttStats) :=
  [("a", ⟨50, 1, 0, 0, 0⟩), ("b", ⟨10, 1, 0, 0, 0⟩),
   ("c", ⟨20, 1, 0, 6, 100⟩)]

/-- A result whose single answer record has TTL 7200 (above the 3600
starting ceiling of the scan). -/
def sampleTTLResult : Result :=
  { answer := [.other "a.\t7200\tIN\tNS\tb." 7200], authority := [],
    additional := [], rcode := rcodeSuccess, authoritative := false }

/-- The empty zone model. -/
def zEmpty : ZoneM := { ns := [], ip := [], records := 0 }

/-- A zonefile writer whose temp file exists and holds one record. -/
def sampleFile1 : SaveFile :=
  { filename := "f", filenameTmp := "f.tmp", zone := "ex.",
    opened := true, content := ["a\n"], records := 1, closed := false,
    pendingWrites := [] }

/-- A zonefile writer whose temp file exists and holds two records. -/
def sampleFile2 : SaveFile :=
  { filename := "f", filenameTmp := "f.tmp", zone := "ex.",
    opened := true, content := ["a\n", "b\n"], records := 2, closed := false,
    pendingWrites := [] }

/-- An already created, still empty writer. -/
def sampleOpenFile : SaveFile :=
  { filename := "f", filenameTmp := "f.tmp", zone := "x.",
    opened := true, content := [], records := 0, closed := false,
    pendingWrites := [] }

/-- An AAAA record whose payload is the IPv4-mapped form of 192.0.2.1. -/
def mappedAAAA : RR :=
  .aaaa "x." 3600 [0, 0, 0, 0, 0, 0, 0, 0, 0, 0, 255, 255, 192, 0, 2, 1]

/-- The rcode-5 transfer error as miekg/dns surfaces it. -/
def refusedErr : GoErr := .mk "dns: bad xfr rcode: 5" []

/-- An attempt environment whose first try yields the wrapped rcode-5
envelope error. -/
def sampleRefusedAtt : Nat → Int × Option GoErr :=
  fun _ => (0, some (envelopeErrWrap "x." "192.0.2.1" 0 0
    (errorAxfrUnsupportedWrap refusedErr)))

/-- The pairwise ordering the ranking claim asserts between an earlier
and a later endpoint record: open circuits only at the back, ascending
failure counts within a circuit group, recorded statistics before
missing statistics at equal failure counts, and ascending average RTT
when both have statistics. -/
def nsLeConds (x y : NsWithRTT) : Prop :=
  (x.circuitOpen = true → y.circuitOpen = true) ∧
  (x.circuitOpen = y.circuitOpen → x.failures ≤ y.failures) ∧
  (x.circuitOpen = y.circuitOpen → x.failures = y.failures →
    y.hasStat = true → x.hasStat = true) ∧
  (x.circuitOpen = y.circuitOpen → x.failures = y.failures →
    x.hasStat = true → y.hasStat = true → x.rtt ≤ y.rtt)

/-- `nsLeConds` at positions `i < j` of an output name list, on the stat
records rebuilt from the same map snapshot. -/
def nsOrderedAt (m : List (String × RttStats)) (now : Nat)
    (out : List String) (i j : Nat) : Prop :=
  nsLeConds (mkNsStat m now (out.getD i ""))
    (mkNsStat m now (out.getD j ""))

end Allxfr

namespace Allxfr

/-! ## Theorems -/

/-- Helper: the retry loop over attempts that all report zero records and
no error (the shape a dial failure produces) runs its full fuel. -/
theorem axfrRetryLoop_zero_att (fuel : Nat) : ∀ (t : Nat) (s : Bool),
    axfrRetryLoop (fun _ => ((0 : Int), (none : Option GoErr))) fuel t 0 none s
      = (s, 0, none, t + fuel) := by
  induction fuel with
  | zero => intro t s; simp [axfrRetryLoop]
  | succ n ih =>
    intro t s
    simp only [axfrRetryLoop, ih (t + 1) s]
    norm_num
    omega

/-- C1, counterexample: a created zonefile holding exactly one record.
The claim states that `Finish` appends the `; records: N` comment whenever
`Records > 0`, but the source guards the comment with `records > 1`: at
one record nothing is appended (the file is still renamed). -/
theorem c1_counterexample :
    sampleFile1.records > 0 ∧
    (finish sampleFile1).1.content = ["a\n"] ∧
    ((finish sampleFile1).1.content.contains "; records: 1\n") = false := by
  refine ⟨by decide, rfl, by decide⟩

/-- C1, amended: for a writer whose file was created and that is not yet
closed, the first `Finish` appends `; records: N` exactly when
`Records > 1`; it always emits flush-buffer, flush-gzip, close-gzip,
close-file in that order, followed by a rename of the temp file to the
final name when `Records > 0` and a removal of the temp file when
`Records = 0`; it marks the writer closed, and a second `Finish` is a
no-op (same state, no effects, and in the source a nil return). -/
theorem c1_finish (f : SaveFile) (hop : f.opened = true) (hcl : f.closed = false) :
    ((finish f).1.content =
      if f.records > 1 then
        f.content ++ ["; " ++ ("records" ++ ": " ++ toString f.records ++ "\n")]
      else f.content) ∧
    ((finish f).2 =
      [.flushBuf, .flushGz, .closeGz, .closeFile,
       if f.records > 0 then FinEffect.rename f.filenameTmp f.filename
       else FinEffect.remove f.filenameTmp]) ∧
    (finish f).1.closed = true ∧
    finish (finish f).1 = ((finish f).1, []) := by
  by_cases hr : f.records > 1
  · have h0 : f.records > 0 := by omega
    simp [finish, writeCommentKey, writeComment, hcl, hop, hr, h0]
  · by_cases h0 : f.records > 0
    · simp [finish, writeCommentKey, writeComment, hcl, hop, hr, h0]
    · simp [finish, writeCommentKey, writeComment, hcl, hop, hr, h0]

/-- C1 witness: the amended theorem applied to the concrete two-record
writer. -/
theorem c1_finish_witness :
    ((finish sampleFile2).1.content =
      if sampleFile2.records > 1 then
        sampleFile2.content ++
          ["; " ++ ("records" ++ ": " ++ toString sampleFile2.records ++ "\n")]
      else sampleFile2.content) ∧
    ((finish sampleFile2).2 =
      [.flushBuf, .flushGz, .closeGz, .closeFile,
       if sampleFile2.records > 0 then
         FinEffect.rename sampleFile2.filenameTmp sampleFile2.filename
       else FinEffect.remove sampleFile2.filenameTmp]) ∧
    (finish sampleFile2).1.closed = true ∧
    finish (finish sampleFile2).1 = ((finish sampleFile2).1, []) :=
  c1_finish sampleFile2 rfl rfl

/-- C5 (code bug): `AddRR` writes `rr.String()`, not the package's own
`RRString`; on an AAAA record carrying the IPv4-mapped `::ffff:192.0.2.1`
the emitted line renders the address as a bare dotted quad `192.0.2.1`
(the miekg/dns issue-1107 text), not as the claimed `::ffff:a.b.c.d`
form, which only the never-called `save.RRString` would produce.  The
record counter does increment by one per call, as claimed. -/
theorem c5_addrr_mapped_aaaa :
    (addRR sampleOpenFile "T" mappedAAAA).1.content
      = ["x.\t3600\tIN\tAAAA\t192.0.2.1\n"] ∧
    (addRR sampleOpenFile "T" mappedAAAA).1.records
      = sampleOpenFile.records + 1 ∧
    rrStringGo mappedAAAA = "x.\t3600\tIN\tAAAA\t192.0.2.1" ∧
    saveRRString mappedAAAA = "x.\t3600\tIN\tAAAA\t::ffff:192.0.2.1" ∧
    rrStringGo mappedAAAA ≠ saveRRString mappedAAAA := by
  refine ⟨rfl, rfl, rfl, rfl, by decide⟩

/-- C2: an envelope error whose text is the rcode-5 (Refused) or rcode-9
(NotAuthorized) string is wrapped by `ErrorAxfrUnsupportedWrap` into the
`ErrAxfrUnsupported` chain; `axfrToFile` returns exactly that wrapped
error; and `axfrRetry`, seeing it on its first attempt, breaks out of the
loop at once — one attempt total — and returns a nil error, so the
wrapped error is not propagated as a failure of the retry call. -/
theorem c2_unsupported_break
    (zone ipStr : String) (reccnt envcnt : Int) (inner : GoErr)
    (att : Nat → Int × Option GoErr) (retry : Nat) (saveAll : Bool) (r0 : Int)
    (hmsg : errString inner = "dns: bad xfr rcode: 5" ∨
            errString inner = "dns: bad xfr rcode: 9")
    (hretry : 1 ≤ retry)
    (hatt : att 0 = (r0, some (envelopeErrWrap zone ipStr reccnt envcnt
      (errorAxfrUnsupportedWrap inner)))) :
    goIsAxfrUnsupported (errorAxfrUnsupportedWrap inner) = true ∧
    (∀ (ts saveDir nameserver : String) (ip : List Nat) (flags : XfrFlags)
        (rrs : List RR) (rest : List Envelope),
      (axfrToFile ts saveDir zone nameserver ip flags false
        (.connOk (⟨some inner, rrs⟩ :: rest))).err =
      some (envelopeErrWrap (fqdn zone) (ipGoString ip) 0 0
        (errorAxfrUnsupportedWrap inner))) ∧
    axfrRetry att retry saveAll = (false, none, 1) := by
  have hwrap : goIsAxfrUnsupported (errorAxfrUnsupportedWrap inner) = true := by
    unfold errorAxfrUnsupportedWrap
    rcases hmsg with h | h <;> rw [h] <;> simp [goIsAxfrUnsupported]
  refine ⟨hwrap, ?_, ?_⟩
  · intro ts saveDir nameserver ip flags rrs rest
    simp [axfrToFile, envLoop, writeComment, writeCommentKey, saveNew]
  · obtain ⟨n, rfl⟩ : ∃ n, retry = n + 1 := ⟨retry - 1, by omega⟩
    have hloop : axfrRetryLoop att (n + 1) 0 0 none false
        = (false, r0, none, 1) := by
      simp only [axfrRetryLoop, hatt]
      simp [goIsAxfrUnsupported, envelopeErrWrap, hwrap]
    simp only [axfrRetry, hloop]
    split_ifs <;> rfl

/-- C2 witness: the theorem applied to the rcode-5 error with three
allowed retries. -/
theorem c2_unsupported_break_witness :
    goIsAxfrUnsupported (errorAxfrUnsupportedWrap refusedErr) = true ∧
    axfrRetry sampleRefusedAtt 3 false = (false, none, 1) := by
  have h := c2_unsupported_break "x." "192.0.2.1" 0 0 refusedErr
    sampleRefusedAtt 3 false 0 (Or.inl rfl) (by decide) rfl
  exact ⟨h.1, h.2.2⟩

/-- C3, counterexample: with the default `retry = 3`, an IP whose dial
always fails is attempted three times, not once.  `axfrToFile` swallows a
connect error into `(0 records, nil error)`; `axfrRetry` treats that as a
plain unsuccessful try and keeps retrying, contradicting the claim that
no further attempt is made against that IP. -/
theorem c3_counterexample :
    axfrToFile "T" "zones" "ex." "ns.ex." [192, 0, 2, 1]
      ⟨false, false, false, false⟩ false
      (.connErr (.mk "dial tcp: i/o timeout" [])) = ⟨0, none, none⟩ ∧
    axfrRetry (fun _ => ((0 : Int), (none : Option GoErr))) 3 false
      = (false, none, 3) ∧
    (3 : Nat) ≠ 1 := by
  refine ⟨rfl, rfl, by decide⟩

/-- C3, amended: a connect (dial) error makes `axfrToFile` return zero
records with a nil error and construct no writer, so no file is created;
`axfrRetry` does not break on it and re-dials on every one of its `retry`
attempts, after which it reports no success and no error, and the engine
moves on to the next candidate IP. -/
theorem c3_connect_error (ts saveDir zone nameserver : String) (ip : List Nat)
    (flags : XfrFlags) (fileExists : Bool) (e : GoErr) (retry : Nat)
    (saveAll : Bool) (_hretry : 1 ≤ retry) :
    axfrToFile ts saveDir zone nameserver ip flags fileExists (.connErr e)
      = ⟨0, none, none⟩ ∧
    (axfrToFile ts saveDir zone nameserver ip flags fileExists
      (.connErr e)).fileCreated = false ∧
    axfrRetry (fun _ => ((0 : Int), (none : Option GoErr))) retry saveAll
      = (false, none, retry) := by
  refine ⟨rfl, rfl, ?_⟩
  unfold axfrRetry
  rw [axfrRetryLoop_zero_att retry 0 false]
  simp

/-- C3 witness: the amended theorem at a concrete dial failure with three
retries. -/
theorem c3_connect_error_witness :
    axfrToFile "T" "zones" "ex." "ns.ex." [192, 0, 2, 1]
      ⟨false, false, false, false⟩ false
      (.connErr (.mk "dial tcp: connection refused" [])) = ⟨0, none, none⟩ ∧
    (axfrToFile "T" "zones" "ex." "ns.ex." [192, 0, 2, 1]
      ⟨false, false, false, false⟩ false
      (.connErr (.mk "dial tcp: connection refused" []))).fileCreated = false ∧
    axfrRetry (fun _ => ((0 : Int), (none : Option GoErr))) 3 false
      = (false, none, 3) :=
  c3_connect_error "T" "zones" "ex." "ns.ex." [192, 0, 2, 1]
    ⟨false, false, false, false⟩ false (.mk "dial tcp: connection refused" [])
    3 false (by decide)

/-- Helper: folding `min` distributes over a `min` in the seed. -/
theorem foldr_min_min (L : List Nat) (a b : Nat) :
    L.foldr min (min a b) = min a (L.foldr min b) := by
  induction L with
  | nil => rfl
  | cons c t ih => simp [List.foldr_cons, ih, Nat.min_left_comm]

/-- Helper: the seed of a `min` fold can be exchanged with a `min`
partner outside it. -/
theorem foldr_min_swap (L : List Nat) (a b : Nat) :
    min a (L.foldr min b) = min b (L.foldr min a) := by
  rw [← foldr_min_min, Nat.min_comm a b, foldr_min_min]

/-- Helper: the conditional update of the TTL scans is a `min`. -/
theorem if_lt_min (a b : Nat) : (if a < b then a else b) = min b a := by
  rw [Nat.min_def]
  split_ifs <;> omega

/-- Helper: the Answer scan of `calculateTTL` computes a fold of `min`
over the TTLs. -/
theorem calcAnswerScan_eq (l : List RR) : ∀ (m : Nat),
    calcAnswerScan l m = (l.map rrTTL).foldr min m := by
  induction l with
  | nil => intro m; rfl
  | cons rr rest ih =>
    intro m
    simp only [calcAnswerScan, if_lt_min, ih, List.map_cons, List.foldr_cons]
    rw [foldr_min_min, foldr_min_swap]

/-- Helper: the Authority scan computes a fold of `min` over the TTLs
interleaved with the SOA MINIMUM values considered on NXDOMAIN. -/
theorem calcAuthorityScan_eq (nx : Bool) (l : List RR) : ∀ (m : Nat),
    calcAuthorityScan nx l m =
      (l.flatMap (fun rr =>
        rrTTL rr ::
          (if nx then
            match rr with
            | .soa _ _ minttl => [minttl]
            | _ => []
          else []))).foldr min m := by
  induction l with
  | nil => intro m; rfl
  | cons rr rest ih =>
    intro m
    cases nx with
    | false =>
      simp only [calcAuthorityScan, if_lt_min, ih, Bool.false_eq_true,
        if_false, List.flatMap_cons, List.nil_append, List.singleton_append,
        List.foldr_cons]
      rw [foldr_min_min, foldr_min_swap]
    | true =>
      cases rr with
      | soa text ttl minttl =>
        simp only [calcAuthorityScan, if_lt_min, ih, if_true,
          List.flatMap_cons, List.cons_append, List.nil_append,
          List.singleton_append, List.foldr_cons]
        rw [foldr_min_min _ _ minttl, Nat.min_assoc, Nat.min_left_comm,
          foldr_min_swap]
      | aaaa name ttl ip =>
        simp only [calcAuthorityScan, if_lt_min, ih, if_true,
          List.flatMap_cons, List.nil_append, List.singleton_append,
          List.foldr_cons]
        rw [foldr_min_min, foldr_min_swap]
      | other text ttl =>
        simp only [calcAuthorityScan, if_lt_min, ih, if_true,
          List.flatMap_cons, List.nil_append, List.singleton_append,
          List.foldr_cons]
        rw [foldr_min_min, foldr_min_swap]

/-- Helper: two `min` folds over a shared seed commute. -/
theorem foldr_min_comm (A : List Nat) : ∀ (B : List Nat) (s : Nat),
    A.foldr min (B.foldr min s) = B.foldr min (A.foldr min s) := by
  induction A with
  | nil => intro B s; rfl
  | cons a A ih =>
    intro B s
    simp only [List.foldr_cons, ih, foldr_min_min]

/-- C6, counterexample: a result whose only record has TTL 7200.  The
claim says `calculateTTL` returns the minimum TTL over Answer and
Authority floored at 60 s — that would be 7200 s — but the scan starts
from a 3600 ceiling, so the source returns 3600 s. -/
theorem c6_counterexample :
    (sampleTTLResult.answer ++ sampleTTLResult.authority).map rrTTL = [7200] ∧
    calculateTTL (some sampleTTLResult) = 3600 ∧
    (3600 : Nat) ≠ max 60 7200 := by
  refine ⟨rfl, rfl, by decide⟩

/-- C6, amended: `calculateTTL` returns 300 s when Answer and Authority
are both empty, and otherwise the minimum over the section TTLs (plus
SOA MINIMUM values of the Authority section when the result is NXDOMAIN)
additionally capped at the 3600 starting ceiling, floored at 60 s. -/
theorem c6_ttl (r : Result) :
    calculateTTL (some r) =
      if r.answer = [] ∧ r.authority = [] then 300
      else max 60 ((ttlCandidates r).foldr min 3600) := by
  have hms : calculateTTL (some r) =
      (if (ttlCandidates r).foldr min 3600 = 3600 ∧
          r.answer = [] ∧ r.authority = [] then 300
       else if (ttlCandidates r).foldr min 3600 < 60 then 60
       else (ttlCandidates r).foldr min 3600) := by
    unfold calculateTTL ttlCandidates
    dsimp only
    rw [calcAnswerScan_eq, calcAuthorityScan_eq, foldr_min_comm,
      List.foldr_append]
    simp
  rw [hms]
  by_cases hE : r.answer = [] ∧ r.authority = []
  · obtain ⟨h1, h2⟩ := hE
    have hcand : ttlCandidates r = [] := by
      unfold ttlCandidates
      rw [h1, h2]
      rfl
    simp [h1, h2, hcand]
  · have hne : ¬ ((ttlCandidates r).foldr min 3600 = 3600 ∧
        r.answer = [] ∧ r.authority = []) := fun h => hE h.2
    rw [if_neg hne, if_neg hE, Nat.max_def]
    split_ifs <;> omega

/-- Helper: a key absent from the key column never matches `any`. -/
theorem any_fst_eq_false {β : Type} (l : List (String × β)) (k : String)
    (h : k ∉ l.map Prod.fst) : l.any (fun p => p.1 == k) = false := by
  rw [List.any_eq_false]
  intro p hp
  simp only [beq_iff_eq]
  intro hpk
  exact h (List.mem_map.2 ⟨p, hp, hpk⟩)

/-- Helper: deleting a zone from a duplicate-free active map removes it. -/
theorem activeHas_delete (l : List (String × Nat)) (k : String)
    (h : (l.map Prod.fst).Nodup) :
    (activeDelete l k).any (fun p => p.1 == k) = false := by
  induction l with
  | nil => rfl
  | cons p t ih =>
    simp only [List.map_cons, List.nodup_cons] at h
    unfold activeDelete at ih ⊢
    rw [List.eraseP_cons]
    rcases hpk : (p.1 == k) with _ | _
    · simp only [cond_false, List.any_cons, hpk, Bool.false_or]
      exact ih h.2
    · simp only [cond_true]
      have : k ∉ t.map Prod.fst := by
        rw [beq_iff_eq] at hpk
        rw [← hpk]
        exact h.1
      exact any_fst_eq_false t k this

/-- Helper: deletion preserves duplicate-freedom of the key column. -/
theorem nodup_delete (l : List (String × Nat)) (k : String)
    (h : (l.map Prod.fst).Nodup) :
    ((activeDelete l k).map Prod.fst).Nodup := by
  have hs : (activeDelete l k).Sublist l := List.eraseP_sublist l
  exact (hs.map Prod.fst).nodup h

/-- Helper: after `Store`, the zone is in the active map. -/
theorem activeHas_store (l : List (String × Nat)) (z : String) (now : Nat) :
    (activeStore l z now).any (fun p => p.1 == z) = true := by
  unfold activeStore
  split_ifs with h
  · rw [List.any_eq_true] at h ⊢
    obtain ⟨p, hp, hpz⟩ := h
    refine ⟨(z, now), List.mem_map.2 ⟨p, hp, ?_⟩, by simp⟩
    simp [hpz]
  · rw [List.any_eq_true]
    exact ⟨(z, now), by simp, by simp⟩

/-- Helper: completing an inactive zone is a no-op. -/
theorem completeTransfer_not_active (s : StatusState) (z : String)
    (h : activeHas s z = false) : completeTransfer s z = s := by
  simp [completeTransfer, h]

/-- Helper: failing an inactive zone is a no-op. -/
theorem failTransfer_not_active (s : StatusState) (z reason : String)
    (h : activeHas s z = false) : failTransfer s z reason = s := by
  simp [failTransfer, h]

/-- C9, counterexample: `FailTransfer` with an empty reason appends just
the zone name, not the claimed `z: reason` text (which would be `"ex.: "`
here). -/
theorem c9_counterexample :
    (failTransfer (startTransfer statusNew "ex." 0) "ex." "").recentFailed
      = ["ex."] ∧ ("ex." : String) ≠ "ex.: " := by
  refine ⟨rfl, by decide⟩

/-- C9, amended: on a duplicate-free active map, `CompleteTransfer` and
`FailTransfer` change state only when the zone is active; the first such
call removes the zone, decrements `activeCount` (uint32 wrap-around
decrement) and increments exactly one of `completed`/`failed`; a counted
failure appends `z: reason` — just `z` when the reason is empty — to the
recent-failures list, which never exceeds 10 entries and drops its oldest
entry when full; and any further Complete/Fail call for the same start is
a no-op. -/
theorem c9_status (s : StatusState) (z reason : String) (now : Nat)
    (hnd : (s.active.map Prod.fst).Nodup) :
    (activeHas s z = false →
      completeTransfer s z = s ∧ failTransfer s z reason = s) ∧
    (activeHas s z = true →
      activeHas (completeTransfer s z) z = false ∧
      (completeTransfer s z).activeCount = u32 (s.activeCount + (u32Mod - 1)) ∧
      (completeTransfer s z).completed = u32 (s.completed + 1) ∧
      (completeTransfer s z).failed = s.failed ∧
      (completeTransfer s z).recentFailed = s.recentFailed ∧
      activeHas (failTransfer s z reason) z = false ∧
      (failTransfer s z reason).activeCount = u32 (s.activeCount + (u32Mod - 1)) ∧
      (failTransfer s z reason).failed = u32 (s.failed + 1) ∧
      (failTransfer s z reason).completed = s.completed ∧
      (failTransfer s z reason).recentFailed =
        (if (s.recentFailed ++
              [if reason ≠ "" then z ++ ": " ++ reason else z]).length > 10
         then (s.recentFailed ++
              [if reason ≠ "" then z ++ ": " ++ reason else z]).drop 1
         else s.recentFailed ++
              [if reason ≠ "" then z ++ ": " ++ reason else z])) ∧
    activeHas (startTransfer s z now) z = true ∧
    completeTransfer (completeTransfer s z) z = completeTransfer s z ∧
    failTransfer (completeTransfer s z) z reason = completeTransfer s z ∧
    completeTransfer (failTransfer s z reason) z = failTransfer s z reason ∧
    failTransfer (failTransfer s z reason) z reason = failTransfer s z reason ∧
    (s.recentFailed.length ≤ 10 →
      (failTransfer s z reason).recentFailed.length ≤ 10) ∧
    (s.recentFailed.length = 10 → activeHas s z = true →
      (failTransfer s z reason).recentFailed =
        s.recentFailed.drop 1 ++
          [if reason ≠ "" then z ++ ": " ++ reason else z]) := by
  by_cases hz : activeHas s z = true
  · have hcdel : activeHas (completeTransfer s z) z = false := by
      simp only [completeTransfer, hz, if_true]
      exact activeHas_delete s.active z hnd
    have hfdel : activeHas (failTransfer s z reason) z = false := by
      simp only [failTransfer, hz, if_true]
      exact activeHas_delete s.active z hnd
    refine ⟨?_, ?_, activeHas_store s.active z now, ?_, ?_, ?_, ?_, ?_, ?_⟩
    · intro h
      rw [hz] at h
      cases h
    · intro _
      refine ⟨hcdel, ?_, ?_, ?_, ?_, hfdel, ?_, ?_, ?_, ?_⟩ <;>
        simp [completeTransfer, failTransfer, hz]
    · exact completeTransfer_not_active _ _ hcdel
    · exact failTransfer_not_active _ _ _ hcdel
    · exact completeTransfer_not_active _ _ hfdel
    · exact failTransfer_not_active _ _ _ hfdel
    · intro hlen
      simp only [failTransfer, hz, if_true]
      split_ifs with h <;> simp_all
    · intro hlen _
      simp only [failTransfer, hz, if_true]
      have : (s.recentFailed ++
          [if reason ≠ "" then z ++ ": " ++ reason else z]).length > 10 := by
        simp [hlen]
      rw [if_pos this,
        List.drop_append_of_le_length (by omega : 1 ≤ s.recentFailed.length)]
  · have hz' : activeHas s z = false := by
      rcases h : activeHas s z with _ | _
      · rfl
      · exact absurd h hz
    have hc : completeTransfer s z = s := completeTransfer_not_active _ _ hz'
    have hf : failTransfer s z reason = s := failTransfer_not_active _ _ _ hz'
    refine ⟨fun _ => ⟨hc, hf⟩, fun h => absurd h hz,
      activeHas_store s.active z now, ?_, ?_, ?_, ?_, ?_, ?_⟩
    · rw [hc, hc]
    · rw [hc, hf]
    · rw [hf, hc]
    · rw [hf, hf]
    · intro hlen
      rw [hf]
      exact hlen
    · intro _ h
      exact absurd h hz

/-- C9 witness: the amended theorem applied once at the empty aggregator
and once after a start, exhibiting the start/complete transition and its
idempotence. -/
theorem c9_status_witness :
    activeHas (startTransfer statusNew "ex." 5) "ex." = true ∧
    completeTransfer (completeTransfer (startTransfer statusNew "ex." 5) "ex.") "ex."
      = completeTransfer (startTransfer statusNew "ex." 5) "ex." := by
  have h1 := c9_status statusNew "ex." "boom" 5 (by decide)
  have h2 := c9_status (startTransfer statusNew "ex." 5) "ex." "boom" 5 (by decide)
  exact ⟨h1.2.2.1, h2.2.2.2.1⟩

/-- Helper: `nsHas` is membership in the key column of the NS map. -/
theorem nsHas_iff_mem (z : ZoneM) (d : String) :
    nsHas z d = true ↔ d ∈ z.ns.map Prod.fst := by
  unfold nsHas
  rw [List.any_eq_true]
  constructor
  · rintro ⟨p, hp, hpd⟩
    rw [beq_iff_eq] at hpd
    exact List.mem_map.2 ⟨p, hp, hpd⟩
  · intro h
    obtain ⟨p, hp, hpd⟩ := List.mem_map.1 h
    exact ⟨p, hp, by rw [beq_iff_eq]; exact hpd⟩

/-- C10: `AddNS` with an empty nameserver creates the lower-cased domain
key with an empty nameserver sequence when absent, changes nothing when
present, appends no nameserver, leaves `Records` unchanged — and the
domain is emitted by `GetNameChan` exactly when it is neither `"."` nor
an arpa name. -/
theorem c10_addns_empty (z : ZoneM) (domain : String) :
    (addNS z domain "").records = z.records ∧
    (nsHas z domain.toLower = false →
      (addNS z domain "").ns = z.ns ++ [(domain.toLower, [])]) ∧
    (nsHas z domain.toLower = true → addNS z domain "" = z) ∧
    nsHas (addNS z domain "") domain.toLower = true ∧
    (domain.toLower ∈ getNameList (addNS z domain "") ↔
      ¬ (domain.toLower = "." ∨ domain.toLower = "arpa." ∨
         domain.toLower.endsWith ".arpa." = true)) := by
  have hlen : ¬ (0 < ("" : String).length) := by decide
  have hmem : nsHas (addNS z domain "") domain.toLower = true := by
    by_cases h : nsHas z domain.toLower = true
    · simp [addNS, hlen, h]
    · simp only [addNS, hlen, h, if_false, if_neg hlen]
      rw [nsHas_iff_mem]
      simp
  refine ⟨?_, ?_, ?_, hmem, ?_⟩
  · by_cases h : nsHas z domain.toLower = true <;> simp [addNS, hlen, h]
  · intro h
    simp [addNS, hlen, h]
  · intro h
    simp [addNS, hlen, h]
  · unfold getNameList
    rw [List.mem_filter]
    have hm : domain.toLower ∈ (addNS z domain "").ns.map Prod.fst :=
      (nsHas_iff_mem _ _).1 hmem
    constructor
    · rintro ⟨_, hp⟩
      simpa using hp
    · intro hp
      exact ⟨hm, by simpa using hp⟩

/-- Helper: full characterisation of one `dedupAppend` pass — the seen
set grows by exactly the section's record texts, and the section
accumulator grows by the records whose text is new, without text
duplicates among them. -/
theorem dedupAppend_spec (l : List RR) : ∀ (seen : List String) (acc : List RR),
    (∀ s, s ∈ (dedupAppend seen acc l).1 ↔ s ∈ seen ∨ s ∈ l.map rrStringGo) ∧
    ∃ d, (dedupAppend seen acc l).2 = acc ++ d ∧
      (d.map rrStringGo).Nodup ∧
      (∀ s, s ∈ d.map rrStringGo ↔ s ∈ l.map rrStringGo ∧ s ∉ seen) := by
  induction l with
  | nil =>
    intro seen acc
    exact ⟨fun s => by simp [dedupAppend], [], by simp [dedupAppend],
      by simp, fun s => by simp⟩
  | cons rr rest ih =>
    intro seen acc
    by_cases hk : rrStringGo rr ∈ seen
    · have hc : seen.contains (rrStringGo rr) = true := List.elem_iff.mpr hk
      have hred : dedupAppend seen acc (rr :: rest) = dedupAppend seen acc rest := by
        show (if seen.contains (rrStringGo rr) then dedupAppend seen acc rest
          else dedupAppend (rrStringGo rr :: seen) (acc ++ [rr]) rest)
          = dedupAppend seen acc rest
        rw [hc, if_pos rfl]
      rw [hred]
      obtain ⟨h1, d, h2, h3, h4⟩ := ih seen acc
      refine ⟨?_, d, h2, h3, ?_⟩
      · intro s
        rw [h1 s]
        simp only [List.map_cons, List.mem_cons]
        constructor
        · rintro (h | h)
          · exact Or.inl h
          · exact Or.inr (Or.inr h)
        · rintro (h | h | h)
          · exact Or.inl h
          · exact Or.inl (by rw [h]; exact hk)
          · exact Or.inr h
      · intro s
        rw [h4 s]
        simp only [List.map_cons, List.mem_cons]
        constructor
        · rintro ⟨h, hn⟩
          exact ⟨Or.inr h, hn⟩
        · rintro ⟨h | h, hn⟩
          · exact absurd (by rw [h]; exact hk) hn
          · exact ⟨h, hn⟩
    · have hc : seen.contains (rrStringGo rr) = false := by
        rcases h : seen.contains (rrStringGo rr) with _ | _
        · rfl
        · exact absurd (List.elem_iff.mp h) hk
      have hred : dedupAppend seen acc (rr :: rest)
          = dedupAppend (rrStringGo rr :: seen) (acc ++ [rr]) rest := by
        show (if seen.contains (rrStringGo rr) then dedupAppend seen acc rest
          else dedupAppend (rrStringGo rr :: seen) (acc ++ [rr]) rest)
          = dedupAppend (rrStringGo rr :: seen) (acc ++ [rr]) rest
        rw [hc, if_neg Bool.false_ne_true]
      rw [hred]
      obtain ⟨h1, d, h2, h3, h4⟩ := ih (rrStringGo rr :: seen) (acc ++ [rr])
      refine ⟨?_, rr :: d, ?_, ?_, ?_⟩
      · intro s
        rw [h1 s]
        simp only [List.mem_cons, List.map_cons]
        tauto
      · rw [h2, List.append_assoc]
        rfl
      · simp only [List.map_cons, List.nodup_cons]
        refine ⟨?_, h3⟩
        intro hmem
        exact ((h4 _).1 hmem).2 (List.mem_cons_self _ _)
      · intro s
        simp only [List.map_cons, List.mem_cons]
        constructor
        · rintro (h | h)
          · exact ⟨Or.inl h, by rw [h]; exact hk⟩
          · obtain ⟨hr, hn⟩ := (h4 s).1 h
            exact ⟨Or.inr hr, fun hs => hn (List.mem_cons_of_mem _ hs)⟩
        · rintro ⟨h | h, hn⟩
          · exact Or.inl h
          · by_cases hsk : s = rrStringGo rr
            · exact Or.inl hsk
            · refine Or.inr ((h4 s).2 ⟨h, ?_⟩)
              simp only [List.mem_cons]
              rintro (hh | hh)
              · exact hsk hh
              · exact hn hh

/-- Helper: assembling the three deduplicated section extensions keeps
the whole record list duplicate-free. -/
theorem nodup_merge_append (A B C Da Db Dc : List String)
    (hnd : (A ++ B ++ C).Nodup)
    (ha : Da.Nodup) (hb : Db.Nodup) (hc : Dc.Nodup)
    (hDa : ∀ s ∈ Da, s ∉ A ++ B ++ C)
    (hDb : ∀ s ∈ Db, s ∉ A ++ B ++ C ∧ s ∉ Da)
    (hDc : ∀ s ∈ Dc, s ∉ A ++ B ++ C ∧ s ∉ Da ∧ s ∉ Db) :
    ((A ++ Da) ++ (B ++ Db) ++ (C ++ Dc)).Nodup := by
  have hperm : List.Perm ((A ++ B ++ C) ++ (Da ++ Db ++ Dc))
      ((A ++ Da) ++ (B ++ Db) ++ (C ++ Dc)) := by
    rw [List.perm_iff_count]
    intro a
    simp only [List.count_append]
    ring
  refine hperm.nodup ?_
  rw [List.nodup_append]
  refine ⟨hnd, ?_, ?_⟩
  · rw [List.nodup_append]
    refine ⟨?_, hc, ?_⟩
    · rw [List.nodup_append]
      exact ⟨ha, hb, fun s hsa hsb => (hDb s hsb).2 hsa⟩
    · intro s hs hsc
      rw [List.mem_append] at hs
      rcases hs with h | h
      · exact (hDc s hsc).2.1 h
      · exact (hDc s hsc).2.2 h
  · intro s hs hsd
    rw [List.mem_append] at hsd
    rcases hsd with h | h
    · rw [List.mem_append] at h
      rcases h with h | h
      · exact (hDa s h) hs
      · exact (hDb s h).1 hs
    · exact (hDc s h).1 hs

/-- Helper: `mergeOne` written out against the outcomes of its three
chained `dedupAppend` calls — the rcode promotes, the authoritative flag
ORs, and the sections/seen set come from the dedup passes. -/
theorem mergeOne_eq (merged : Result) (seen : List String) (r : Result)
    (s1 s2 s3 : List String) (a1 a2 a3 : List RR)
    (hE1 : dedupAppend seen merged.answer r.answer = (s1, a1))
    (hE2 : dedupAppend s1 merged.authority r.authority = (s2, a2))
    (hE3 : dedupAppend s2 merged.additional r.additional = (s3, a3)) :
    mergeOne merged seen r =
      ({ answer := a1, authority := a2, additional := a3,
         rcode := if r.rcode = rcodeSuccess then rcodeSuccess
           else if merged.rcode = rcodeServerFailure ∧ r.rcode = rcodeNameError
           then rcodeNameError else merged.rcode,
         authoritative := merged.authoritative || r.authoritative }, s3) := by
  unfold mergeOne
  by_cases hc1 : r.rcode = rcodeSuccess <;>
    by_cases hc2 : merged.rcode = rcodeServerFailure ∧ r.rcode = rcodeNameError <;>
      cases hauth : r.authoritative <;>
        (try simp only [rcodeSuccess, rcodeNameError, rcodeServerFailure]
          at hc1 hc2) <;>
        simp [hc1, hc2, hauth, hE1, hE2, hE3, rcodeSuccess, rcodeNameError,
          rcodeServerFailure]

/-- Helper: the propositional core of the shared-seen-set dedup — how
one element\x27s membership in the final seen set and in the three merged
sections relates to its membership in the inputs. -/
theorem merge_seen_logic {seenP s1P s2P s3P dAP dBP dCP raP rbP rcP AP BP CP : Prop}
    (p1 : s1P ↔ seenP ∨ raP) (p2 : s2P ↔ s1P ∨ rbP) (p3 : s3P ↔ s2P ∨ rcP)
    (p4 : dAP ↔ raP ∧ ¬seenP) (p5 : dBP ↔ rbP ∧ ¬s1P) (p6 : dCP ↔ rcP ∧ ¬s2P)
    (p7 : seenP ↔ (AP ∨ BP) ∨ CP) :
    (s3P ↔ ((AP ∨ dAP) ∨ (BP ∨ dBP)) ∨ (CP ∨ dCP)) ∧
    ((((AP ∨ dAP) ∨ (BP ∨ dBP)) ∨ (CP ∨ dCP)) ↔
      (((AP ∨ BP) ∨ CP) ∨ ((raP ∨ rbP) ∨ rcP))) := by
  have tA : AP → ((AP ∨ dAP) ∨ (BP ∨ dBP)) ∨ (CP ∨ dCP) :=
    fun h => Or.inl (Or.inl (Or.inl h))
  have tB : BP → ((AP ∨ dAP) ∨ (BP ∨ dBP)) ∨ (CP ∨ dCP) :=
    fun h => Or.inl (Or.inr (Or.inl h))
  have tC : CP → ((AP ∨ dAP) ∨ (BP ∨ dBP)) ∨ (CP ∨ dCP) :=
    fun h => Or.inr (Or.inl h)
  have tseen : seenP → ((AP ∨ dAP) ∨ (BP ∨ dBP)) ∨ (CP ∨ dCP) := by
    intro h
    rcases p7.1 h with (h | h) | h
    · exact tA h
    · exact tB h
    · exact tC h
  have tra : raP → ((AP ∨ dAP) ∨ (BP ∨ dBP)) ∨ (CP ∨ dCP) := by
    intro h
    by_cases hs : seenP
    · exact tseen hs
    · exact Or.inl (Or.inl (Or.inr (p4.2 ⟨h, hs⟩)))
  have ts1 : s1P → ((AP ∨ dAP) ∨ (BP ∨ dBP)) ∨ (CP ∨ dCP) := by
    intro h
    rcases p1.1 h with h | h
    · exact tseen h
    · exact tra h
  have trb : rbP → ((AP ∨ dAP) ∨ (BP ∨ dBP)) ∨ (CP ∨ dCP) := by
    intro h
    by_cases hs : s1P
    · exact ts1 hs
    · exact Or.inl (Or.inr (Or.inr (p5.2 ⟨h, hs⟩)))
  have ts2 : s2P → ((AP ∨ dAP) ∨ (BP ∨ dBP)) ∨ (CP ∨ dCP) := by
    intro h
    rcases p2.1 h with h | h
    · exact ts1 h
    · exact trb h
  have trc : rcP → ((AP ∨ dAP) ∨ (BP ∨ dBP)) ∨ (CP ∨ dCP) := by
    intro h
    by_cases hs : s2P
    · exact ts2 hs
    · exact Or.inr (Or.inr (p6.2 ⟨h, hs⟩))
  have ts3 : s3P → ((AP ∨ dAP) ∨ (BP ∨ dBP)) ∨ (CP ∨ dCP) := by
    intro h
    rcases p3.1 h with h | h
    · exact ts2 h
    · exact trc h
  have back : (((AP ∨ dAP) ∨ (BP ∨ dBP)) ∨ (CP ∨ dCP)) → s3P := by
    have hs1 : seenP ∨ raP → s3P := fun h =>
      p3.2 (Or.inl (p2.2 (Or.inl (p1.2 h))))
    rintro (((h | h) | (h | h)) | (h | h))
    · exact hs1 (Or.inl (p7.2 (Or.inl (Or.inl h))))
    · exact hs1 (Or.inr (p4.1 h).1)
    · exact hs1 (Or.inl (p7.2 (Or.inl (Or.inr h))))
    · exact p3.2 (Or.inl (p2.2 (Or.inr (p5.1 h).1)))
    · exact hs1 (Or.inl (p7.2 (Or.inr h)))
    · exact p3.2 (Or.inr (p6.1 h).1)
  refine ⟨⟨ts3, back⟩, ⟨?_, ?_⟩⟩
  · rintro (((h | h) | (h | h)) | (h | h))
    · exact Or.inl (Or.inl (Or.inl h))
    · exact Or.inr (Or.inl (Or.inl (p4.1 h).1))
    · exact Or.inl (Or.inl (Or.inr h))
    · exact Or.inr (Or.inl (Or.inr (p5.1 h).1))
    · exact Or.inl (Or.inr h)
    · exact Or.inr (Or.inr (p6.1 h).1)
  · rintro (((h | h) | h) | ((h | h) | h))
    · exact tA h
    · exact tB h
    · exact tC h
    · exact tra h
    · exact trb h
    · exact trc h

/-- Helper: the full invariant of one `mergeOne` step: the seen set
tracks the merged record texts, the merged list stays duplicate-free,
its text set is the union of the old one and the new result\x27s, each
section only grows from the corresponding section, and rcode /
authoritative promote as the source does. -/
theorem mergeOne_spec (merged : Result) (seen : List String) (r : Result)
    (hseen : ∀ s, s ∈ seen ↔ s ∈ (allRRs merged).map rrStringGo)
    (hnd : ((allRRs merged).map rrStringGo).Nodup) :
    (∀ s, s ∈ (mergeOne merged seen r).2 ↔
      s ∈ (allRRs (mergeOne merged seen r).1).map rrStringGo) ∧
    ((allRRs (mergeOne merged seen r).1).map rrStringGo).Nodup ∧
    (∀ s, s ∈ (allRRs (mergeOne merged seen r).1).map rrStringGo ↔
      s ∈ (allRRs merged).map rrStringGo ∨ s ∈ (allRRs r).map rrStringGo) ∧
    (∀ s, s ∈ ((mergeOne merged seen r).1).answer.map rrStringGo →
      s ∈ merged.answer.map rrStringGo ∨ s ∈ r.answer.map rrStringGo) ∧
    (∀ s, s ∈ ((mergeOne merged seen r).1).authority.map rrStringGo →
      s ∈ merged.authority.map rrStringGo ∨ s ∈ r.authority.map rrStringGo) ∧
    (∀ s, s ∈ ((mergeOne merged seen r).1).additional.map rrStringGo →
      s ∈ merged.additional.map rrStringGo ∨ s ∈ r.additional.map rrStringGo) ∧
    ((mergeOne merged seen r).1.rcode =
      if r.rcode = rcodeSuccess then rcodeSuccess
      else if merged.rcode = rcodeServerFailure ∧ r.rcode = rcodeNameError
      then rcodeNameError else merged.rcode) ∧
    ((mergeOne merged seen r).1.authoritative
      = (merged.authoritative || r.authoritative)) := by
  rcases hE1 : dedupAppend seen merged.answer r.answer with ⟨s1, a1⟩
  rcases hE2 : dedupAppend s1 merged.authority r.authority with ⟨s2, a2⟩
  rcases hE3 : dedupAppend s2 merged.additional r.additional with ⟨s3, a3⟩
  have specA := dedupAppend_spec r.answer seen merged.answer
  rw [hE1] at specA
  have specB := dedupAppend_spec r.authority s1 merged.authority
  rw [hE2] at specB
  have specC := dedupAppend_spec r.additional s2 merged.additional
  rw [hE3] at specC
  obtain ⟨hA1, dA, hA2, hA3, hA4⟩ := specA
  obtain ⟨hB1, dB, hB2, hB3, hB4⟩ := specB
  obtain ⟨hC1, dC, hC2, hC3, hC4⟩ := specC
  simp only at hA1 hA2 hA4 hB1 hB2 hB4 hC1 hC2 hC4
  subst hA2 hB2 hC2
  rw [mergeOne_eq merged seen r s1 s2 s3 (merged.answer ++ dA)
    (merged.authority ++ dB) (merged.additional ++ dC) hE1 hE2 hE3]
  simp only [allRRs, List.map_append, List.mem_append] at hseen hnd ⊢
  refine ⟨?_, ?_, ?_, ?_, ?_, ?_, trivial, trivial⟩
  · intro s
    exact (merge_seen_logic (hA1 s) (hB1 s) (hC1 s)
      (by simpa only [List.map_append, List.mem_append] using hA4 s) (by simpa only [List.map_append, List.mem_append] using hB4 s) (by simpa only [List.map_append, List.mem_append] using hC4 s)
      (hseen s)).1
  · apply nodup_merge_append _ _ _ _ _ _ hnd hA3 hB3 hC3
    · intro s hs
      obtain ⟨hra, hns⟩ := (by simpa only [List.map_append, List.mem_append] using hA4 s : _ ↔ _).1 hs
      intro hmem
      apply hns
      refine (hseen s).2 ?_
      simpa only [List.map_append, List.mem_append] using hmem
    · intro s hs
      obtain ⟨hrb, hns1⟩ := (by simpa only [List.map_append, List.mem_append] using hB4 s : _ ↔ _).1 hs
      refine ⟨?_, ?_⟩
      · intro hmem
        apply hns1
        refine (hA1 s).2 (Or.inl ((hseen s).2 ?_))
        simpa only [List.map_append, List.mem_append] using hmem
      · intro hmem
        obtain ⟨hra, _⟩ := (by simpa only [List.map_append, List.mem_append] using hA4 s : _ ↔ _).1 hmem
        exact hns1 ((hA1 s).2 (Or.inr hra))
    · intro s hs
      obtain ⟨hrc, hns2⟩ := (by simpa only [List.map_append, List.mem_append] using hC4 s : _ ↔ _).1 hs
      refine ⟨?_, ?_, ?_⟩
      · intro hmem
        apply hns2
        refine (hB1 s).2 (Or.inl ((hA1 s).2 (Or.inl ((hseen s).2 ?_))))
        simpa only [List.map_append, List.mem_append] using hmem
      · intro hmem
        obtain ⟨hra, _⟩ := (by simpa only [List.map_append, List.mem_append] using hA4 s : _ ↔ _).1 hmem
        exact hns2 ((hB1 s).2 (Or.inl ((hA1 s).2 (Or.inr hra))))
      · intro hmem
        obtain ⟨hrb, _⟩ := (by simpa only [List.map_append, List.mem_append] using hB4 s : _ ↔ _).1 hmem
        exact hns2 ((hB1 s).2 (Or.inr hrb))
  · intro s
    exact (merge_seen_logic (hA1 s) (hB1 s) (hC1 s)
      (by simpa only [List.map_append, List.mem_append] using hA4 s) (by simpa only [List.map_append, List.mem_append] using hB4 s) (by simpa only [List.map_append, List.mem_append] using hC4 s)
      (hseen s)).2
  · intro s hs
    rcases (by simpa only [List.map_append, List.mem_append] using hs : _ ∨ _) with h | h
    · exact Or.inl h
    · exact Or.inr ((hA4 s).1 h).1
  · intro s hs
    rcases (by simpa only [List.map_append, List.mem_append] using hs : _ ∨ _) with h | h
    · exact Or.inl h
    · exact Or.inr ((hB4 s).1 h).1
  · intro s hs
    rcases (by simpa only [List.map_append, List.mem_append] using hs : _ ∨ _) with h | h
    · exact Or.inl h
    · exact Or.inr ((hC4 s).1 h).1

/-- Helper: `anyRcode` over a cons. -/
theorem anyRcode_cons_some (r : Result) (rest : List (Option Result)) (rc : Nat) :
    anyRcode (some r :: rest) rc = ((r.rcode == rc) || anyRcode rest rc) := by
  simp [anyRcode]

theorem anyRcode_cons_none (rest : List (Option Result)) (rc : Nat) :
    anyRcode (none :: rest) rc = anyRcode rest rc := by
  simp [anyRcode]

theorem anyAuth_cons_some (r : Result) (rest : List (Option Result)) :
    anyAuth (some r :: rest) = (r.authoritative || anyAuth rest) := by
  simp [anyAuth]

theorem anyAuth_cons_none (rest : List (Option Result)) :
    anyAuth (none :: rest) = anyAuth rest := by
  simp [anyAuth]

/-- Helper: the invariant of `mergeOne` extended over the whole fold of
`mergeAll`. -/
theorem mergeAll_spec (results : List (Option Result)) :
    ∀ (merged : Result) (seen : List String),
    (∀ s, s ∈ seen ↔ s ∈ (allRRs merged).map rrStringGo) →
    ((allRRs merged).map rrStringGo).Nodup →
    ((allRRs (mergeAll results merged seen)).map rrStringGo).Nodup ∧
    (∀ s, s ∈ (allRRs (mergeAll results merged seen)).map rrStringGo ↔
      s ∈ (allRRs merged).map rrStringGo ∨
        ∃ r, some r ∈ results ∧ s ∈ (allRRs r).map rrStringGo) ∧
    (∀ s, s ∈ (mergeAll results merged seen).answer.map rrStringGo →
      s ∈ merged.answer.map rrStringGo ∨
        ∃ r, some r ∈ results ∧ s ∈ r.answer.map rrStringGo) ∧
    (∀ s, s ∈ (mergeAll results merged seen).authority.map rrStringGo →
      s ∈ merged.authority.map rrStringGo ∨
        ∃ r, some r ∈ results ∧ s ∈ r.authority.map rrStringGo) ∧
    (∀ s, s ∈ (mergeAll results merged seen).additional.map rrStringGo →
      s ∈ merged.additional.map rrStringGo ∨
        ∃ r, some r ∈ results ∧ s ∈ r.additional.map rrStringGo) ∧
    ((mergeAll results merged seen).rcode =
      if anyRcode results rcodeSuccess then rcodeSuccess
      else if merged.rcode = rcodeServerFailure ∧
          anyRcode results rcodeNameError then rcodeNameError
      else merged.rcode) ∧
    ((mergeAll results merged seen).authoritative
      = (merged.authoritative || anyAuth results)) := by
  induction results with
  | nil =>
    intro merged seen hseen hnd
    refine ⟨hnd, ?_, ?_, ?_, ?_, ?_, ?_⟩ <;>
      simp [mergeAll, anyRcode, anyAuth]
  | cons o rest ih =>
    intro merged seen hseen hnd
    cases o with
    | none =>
      obtain ⟨k1, k2, k3, k4, k5, k6, k7⟩ := ih merged seen hseen hnd
      rw [show mergeAll (none :: rest) merged seen
        = mergeAll rest merged seen from rfl]
      refine ⟨k1, ?_, ?_, ?_, ?_, ?_, ?_⟩
      · intro s
        rw [k2 s]
        simp
      · intro s hs
        rcases k3 s hs with h | ⟨r, hr, hrs⟩
        · exact Or.inl h
        · exact Or.inr ⟨r, by simp [hr], hrs⟩
      · intro s hs
        rcases k4 s hs with h | ⟨r, hr, hrs⟩
        · exact Or.inl h
        · exact Or.inr ⟨r, by simp [hr], hrs⟩
      · intro s hs
        rcases k5 s hs with h | ⟨r, hr, hrs⟩
        · exact Or.inl h
        · exact Or.inr ⟨r, by simp [hr], hrs⟩
      · rw [k6, anyRcode_cons_none, anyRcode_cons_none]
      · rw [k7, anyAuth_cons_none]
    | some r =>
      obtain ⟨m1, s1, hms⟩ : ∃ m1 s1, mergeOne merged seen r = (m1, s1) :=
        ⟨_, _, rfl⟩
      obtain ⟨g1, g2, g3, g4, g5, g6, g7, g8⟩ := mergeOne_spec merged seen r hseen hnd
      rw [hms] at g1 g2 g3 g4 g5 g6 g7 g8
      simp only at g1 g2 g3 g4 g5 g6 g7 g8
      have hred : mergeAll (some r :: rest) merged seen = mergeAll rest m1 s1 := by
        show mergeAll rest (mergeOne merged seen r).1 (mergeOne merged seen r).2
          = mergeAll rest m1 s1
        rw [hms]
      rw [hred]
      obtain ⟨k1, k2, k3, k4, k5, k6, k7⟩ := ih m1 s1 g1 g2
      refine ⟨k1, ?_, ?_, ?_, ?_, ?_, ?_⟩
      · intro s
        rw [k2 s]
        simp only [List.mem_cons, Option.some.injEq]
        constructor
        · rintro (h | ⟨rr, hrr, hrs⟩)
          · rcases (g3 s).1 h with h | h
            · exact Or.inl h
            · exact Or.inr ⟨r, Or.inl rfl, h⟩
          · exact Or.inr ⟨rr, Or.inr hrr, hrs⟩
        · rintro (h | ⟨rr, hrr | hrr, hrs⟩)
          · exact Or.inl ((g3 s).2 (Or.inl h))
          · exact Or.inl ((g3 s).2 (Or.inr (by rw [hrr] at hrs; exact hrs)))
          · exact Or.inr ⟨rr, hrr, hrs⟩
      · intro s hs
        rcases k3 s hs with h | ⟨rr, hrr, hrs⟩
        · rcases g4 s h with h2 | h2
          · exact Or.inl h2
          · exact Or.inr ⟨r, by simp, h2⟩
        · exact Or.inr ⟨rr, by simp [hrr], hrs⟩
      · intro s hs
        rcases k4 s hs with h | ⟨rr, hrr, hrs⟩
        · rcases g5 s h with h2 | h2
          · exact Or.inl h2
          · exact Or.inr ⟨r, by simp, h2⟩
        · exact Or.inr ⟨rr, by simp [hrr], hrs⟩
      · intro s hs
        rcases k5 s hs with h | ⟨rr, hrr, hrs⟩
        · rcases g6 s h with h2 | h2
          · exact Or.inl h2
          · exact Or.inr ⟨r, by simp, h2⟩
        · exact Or.inr ⟨rr, by simp [hrr], hrs⟩
      · rw [k6, g7, anyRcode_cons_some, anyRcode_cons_some]
        clear ih hseen hnd hms hred k1 k2 k3 k4 k5 k6 k7 g1 g2 g3 g4 g5 g6 g7 g8
        by_cases e1 : r.rcode = rcodeSuccess <;>
          by_cases e3 : merged.rcode = rcodeServerFailure <;>
            by_cases e4 : anyRcode rest rcodeSuccess = true <;>
              by_cases e6 : r.rcode = rcodeNameError <;>
                by_cases e5 : anyRcode rest rcodeNameError = true <;>
                  simp_all [rcodeSuccess, rcodeNameError, rcodeServerFailure]
      · rw [k7, g8, anyAuth_cons_some, Bool.or_assoc]

/-- C4, counterexample: the record `r` appears in the first result\x27s
Answer and in the second result\x27s Authority.  The `rrSeen` set is
shared across sections, so the Authority copy is dropped: the merged
Authority is empty, not the claimed set-union of the input Authority
sections (which contains `r`). -/
theorem c4_counterexample :
    (mergeResults [some sampleMergeA, some sampleMergeB]).map
      (fun m => m.authority.map rrStringGo) = some [] ∧
    "r" ∈ sampleMergeB.authority.map rrStringGo := by
  refine ⟨rfl, by decide⟩

/-- C4, amended: the Rcode promotes to NOERROR if any input succeeded,
else NXDOMAIN if any reported it, else SERVFAIL; Authoritative is the OR
of the inputs; and the records are deduplicated by presentation text
globally across the three sections: the union of the three merged
sections is exactly the union of all input sections with no text
repeated, and each merged section draws only from the corresponding
input sections (a record whose text already appeared in an earlier
processed section is dropped there, so a section need not contain the
full union of its own sources). -/
theorem c4_merge (results : List (Option Result)) (hne : results ≠ []) :
    ∃ m, mergeResults results = some m ∧
      (m.rcode = if anyRcode results rcodeSuccess then rcodeSuccess
        else if anyRcode results rcodeNameError then rcodeNameError
        else rcodeServerFailure) ∧
      (m.authoritative = anyAuth results) ∧
      ((allRRs m).map rrStringGo).Nodup ∧
      (∀ s, s ∈ (allRRs m).map rrStringGo ↔
        ∃ r, some r ∈ results ∧ s ∈ (allRRs r).map rrStringGo) ∧
      (∀ s, s ∈ m.answer.map rrStringGo →
        ∃ r, some r ∈ results ∧ s ∈ r.answer.map rrStringGo) ∧
      (∀ s, s ∈ m.authority.map rrStringGo →
        ∃ r, some r ∈ results ∧ s ∈ r.authority.map rrStringGo) ∧
      (∀ s, s ∈ m.additional.map rrStringGo →
        ∃ r, some r ∈ results ∧ s ∈ r.additional.map rrStringGo) := by
  have hbase : ∀ s, s ∈ ([] : List String) ↔
      s ∈ (allRRs mergeInit).map rrStringGo := by
    intro s
    simp [allRRs, mergeInit]
  have hnd2 : ((allRRs mergeInit).map rrStringGo).Nodup := by
    simp [allRRs, mergeInit]
  obtain ⟨k1, k2, k3, k4, k5, k6, k7⟩ := mergeAll_spec results mergeInit [] hbase hnd2
  refine ⟨mergeAll results mergeInit [], ?_, ?_, ?_, k1, ?_, ?_, ?_, ?_⟩
  · unfold mergeResults
    rw [if_neg (by simpa [List.isEmpty_iff] using hne)]
    rfl
  · rw [k6]
    simp [mergeInit]
  · rw [k7]
    simp [mergeInit]
  · intro s
    rw [k2 s]
    simp [allRRs, mergeInit]
  · intro s hs
    rcases k3 s hs with h | h
    · simp [mergeInit] at h
    · exact h
  · intro s hs
    rcases k4 s hs with h | h
    · simp [mergeInit] at h
    · exact h
  · intro s hs
    rcases k5 s hs with h | h
    · simp [mergeInit] at h
    · exact h

/-- C4 witness: the amended theorem at the two-result counterexample
input, projecting the duplicate-freedom of the merged record list. -/
theorem c4_merge_witness :
    ∃ m, mergeResults [some sampleMergeA, some sampleMergeB] = some m ∧
      ((allRRs m).map rrStringGo).Nodup := by
  obtain ⟨m, hm, _, _, hnd, _⟩ :=
    c4_merge [some sampleMergeA, some sampleMergeB] (by simp)
  exact ⟨m, hm, hnd⟩

/-- Helper: erasing a key from an association list erases it from the
key column. -/
theorem keys_eraseKey {α : Type} (l : List (String × CEntry α)) (k : String) :
    (cacheEraseKey l k).map Prod.fst = (l.map Prod.fst).erase k := by
  induction l with
  | nil => rfl
  | cons p t ih =>
    unfold cacheEraseKey at ih ⊢
    rw [List.eraseP_cons, List.map_cons, List.erase_cons]
    rcases h : (p.1 == k) with _ | _
    · simp only [cond_false, List.map_cons, ih]
      rw [if_neg (by simp_all)]
    · simp only [cond_true]
      rw [if_pos (by simp_all)]

/-- Helper: a missing key is one absent from the key column. -/
theorem cacheFind_none_iff {α : Type} (c : DnsCache α) (k : String) :
    cacheFind c k = none ↔ k ∉ keysOf c := by
  constructor
  · intro h hmem
    obtain ⟨q, hq, hqk⟩ := List.mem_map.1 hmem
    unfold cacheFind at h
    rcases hfind : c.entries.find? (fun p => p.1 == k) with _ | p
    · rw [List.find?_eq_none] at hfind
      have := hfind q hq
      simp [hqk] at this
    · rw [hfind] at h
      simp at h
  · intro hmem
    unfold cacheFind
    rcases hfind : c.entries.find? (fun p => p.1 == k) with _ | p
    · rw [hfind]
    · exfalso
      have hp := List.find?_some hfind
      have hm := List.mem_of_find?_eq_some hfind
      exact hmem (List.mem_map.2 ⟨p, hm, by simpa using hp⟩)

/-- Helper: a found key is in the key column. -/
theorem cacheFind_some_mem {α : Type} (c : DnsCache α) (k : String)
    (e : CEntry α) (h : cacheFind c k = some e) : k ∈ keysOf c := by
  by_contra hmem
  rw [← cacheFind_none_iff] at hmem
  rw [h] at hmem
  cases hmem

/-- Helper: `dedupKeepFirst` produces no duplicates. -/
theorem dedupKeepFirst_nodup (l : List String) : (dedupKeepFirst l).Nodup := by
  induction l with
  | nil => exact List.nodup_nil
  | cons x xs ih =>
    rw [dedupKeepFirst, List.nodup_cons]
    refine ⟨?_, ih.filter _⟩
    intro hmem
    have := (List.mem_filter.1 hmem).2
    simp at this

/-- Helper: `dedupKeepFirst` keeps exactly the elements. -/
theorem dedupKeepFirst_mem (l : List String) (s : String) :
    s ∈ dedupKeepFirst l ↔ s ∈ l := by
  induction l with
  | nil => rfl
  | cons x xs ih =>
    rw [dedupKeepFirst, List.mem_cons, List.mem_cons]
    constructor
    · rintro (h | h)
      · exact Or.inl h
      · exact Or.inr (ih.1 (List.mem_filter.1 h).1)
    · rintro (h | h)
      · exact Or.inl h
      · by_cases hx : s = x
        · exact Or.inl hx
        · exact Or.inr (List.mem_filter.2 ⟨ih.2 h, by simpa using hx⟩)

/-- Helper: touching `k` moves it to the front of the recency order. -/
theorem recentDistinct_snoc (trace : List String) (k : String) :
    recentDistinct (trace ++ [k])
      = k :: (recentDistinct trace).filter (fun y => y ≠ k) := by
  unfold recentDistinct
  rw [List.reverse_append]
  rfl

/-- Helper: on a duplicate-free list, filtering out one value is
erasure. -/
theorem filter_ne_eq_erase (R : List String) (k : String) (h : R.Nodup) :
    R.filter (fun y => y ≠ k) = R.erase k := by
  rw [h.erase_eq_filter]
  apply List.filter_congr
  intro x _
  by_cases hx : x = k <;> simp [hx]

/-- Helper: erasing an element of the front window commutes with
taking one less. -/
theorem take_erase_of_mem : ∀ (R : List String) (C : Nat) (k : String),
    R.Nodup → k ∈ R.take C → (R.take C).erase k = (R.erase k).take (C - 1) := by
  intro R
  induction R with
  | nil => intro C k _ h; simp at h
  | cons x R ih =>
    intro C k hnd hmem
    cases C with
    | zero => simp at hmem
    | succ c =>
      rw [List.nodup_cons] at hnd
      rw [List.take_succ_cons] at hmem ⊢
      rw [List.mem_cons] at hmem
      rw [List.erase_cons, List.erase_cons]
      rcases hmem with h | h
      · rw [if_pos (by simp [h]), if_pos (by simp [h])]
        simp
      · have hxk : ¬ (x = k) := by
          intro hx
          exact hnd.1 (hx ▸ (List.take_subset c R h))
        rw [if_neg (by simpa using fun hh => hxk hh),
          if_neg (by simpa using fun hh => hxk hh)]
        have hc : 1 ≤ c := by
          cases c with
          | zero => simp at h
          | succ _ => omega
        rw [ih c k hnd.2 h]
        cases c with
        | zero => omega
        | succ c2 => simp [List.take_succ_cons]

/-- Helper: erasing an element outside the front window leaves the
smaller front window unchanged. -/
theorem take_erase_of_not_mem : ∀ (R : List String) (C : Nat) (k : String),
    k ∉ R.take C → (R.erase k).take (C - 1) = R.take (C - 1) := by
  intro R
  induction R with
  | nil => intro C k _; simp
  | cons x R ih =>
    intro C k hmem
    cases C with
    | zero => simp
    | succ c =>
      rw [List.take_succ_cons, List.mem_cons] at hmem
      push_neg at hmem
      rw [List.erase_cons, if_neg (by simpa using fun hh => hmem.1 hh.symm)]
      cases c with
      | zero => simp
      | succ c2 =>
        rw [show Nat.succ c2 + 1 - 1 = c2 + 1 from rfl,
          List.take_succ_cons, List.take_succ_cons]
        have := ih (c2 + 1) k hmem.2
        simp only [Nat.add_sub_cancel] at this
        rw [this]

/-- Helper: dropping the last element of a full front window shrinks it
by one. -/
theorem take_dropLast (R : List String) (C : Nat) (h : C ≤ R.length) :
    (R.take C).dropLast = R.take (C - 1) := by
  rw [List.dropLast_eq_take, List.length_take, List.take_take]
  congr 1
  omega

/-- Helper: successor forms of the window lemmas, matching use sites. -/
theorem take_erase_succ (R : List String) (m : Nat) (k : String)
    (hnd : R.Nodup) (hmem : k ∈ R.take (m + 1)) :
    (R.take (m + 1)).erase k = (R.erase k).take m :=
  take_erase_of_mem R (m + 1) k hnd hmem

theorem take_erase_not_mem_succ (R : List String) (m : Nat) (k : String)
    (hmem : k ∉ R.take (m + 1)) :
    (R.erase k).take m = R.take m :=
  take_erase_of_not_mem R (m + 1) k hmem

theorem take_dropLast_succ (R : List String) (m : Nat) (h : m + 1 ≤ R.length) :
    (R.take (m + 1)).dropLast = R.take m :=
  take_dropLast R (m + 1) h

/-- Helper: the four step equations of `cacheStep`. -/
theorem cacheStep_get_none {α : Type} (c : DnsCache α) (k : String) (now : Nat)
    (hf : cacheFind c k = none) :
    cacheStep c (.opGet k now) = (c, [], true) := by
  simp [cacheStep, hf]

theorem cacheStep_get_live {α : Type} (c : DnsCache α) (k : String) (now : Nat)
    (e : CEntry α) (hf : cacheFind c k = some e)
    (hx : ¬ ((now : Int) > e.expiry)) :
    cacheStep c (.opGet k now) = ((cacheGet c k now).2, [k], true) := by
  simp [cacheStep, hf, hx]

theorem cacheStep_get_expired {α : Type} (c : DnsCache α) (k : String)
    (now : Nat) (e : CEntry α) (hf : cacheFind c k = some e)
    (hx : (now : Int) > e.expiry) :
    cacheStep c (.opGet k now) = ((cacheGet c k now).2, [], false) := by
  simp [cacheStep, hf, hx]

theorem cacheStep_put {α : Type} (c : DnsCache α) (k : String) (res : α)
    (ttl : Int) (now : Nat) (neg : Bool) :
    cacheStep c (.opPut k res ttl now neg)
      = (cachePutWithNegative c k res ttl now neg, [k], true) := by
  simp [cacheStep]

/-- Helper: `cacheGet` on a live hit moves the refreshed entry to the
head. -/
theorem cacheGet_live {α : Type} (c : DnsCache α) (k : String) (now : Nat)
    (e : CEntry α) (hf : cacheFind c k = some e)
    (hx : ¬ ((now : Int) > e.expiry)) :
    (cacheGet c k now).2 = { c with entries :=
      (k, { e with lastUsed := now }) :: cacheEraseKey c.entries k } := by
  simp [cacheGet, hf, hx]

/-- Helper: `putWithNegative` on a present key replaces and moves to
the head. -/
theorem cachePut_existing {α : Type} (c : DnsCache α) (k : String) (res : α)
    (ttl : Int) (now : Nat) (neg : Bool) (e : CEntry α)
    (hf : cacheFind c k = some e) :
    cachePutWithNegative c k res ttl now neg = { c with entries :=
      (k, ⟨res, (now : Int) + ttl, now, neg⟩) :: cacheEraseKey c.entries k } := by
  simp [cachePutWithNegative, hf]

/-- Helper: `putWithNegative` on a fresh key inserts at the head,
dropping the tail entry when over capacity. -/
theorem cachePut_new {α : Type} (c : DnsCache α) (k : String) (res : α)
    (ttl : Int) (now : Nat) (neg : Bool) (hf : cacheFind c k = none) :
    cachePutWithNegative c k res ttl now neg =
      (if ((k, (⟨res, (now : Int) + ttl, now, neg⟩ : CEntry α))
          :: c.entries).length > c.capacity
       then { c with entries :=
          ((k, ⟨res, (now : Int) + ttl, now, neg⟩) :: c.entries).dropLast }
       else { c with entries :=
          (k, ⟨res, (now : Int) + ttl, now, neg⟩) :: c.entries }) := by
  simp [cachePutWithNegative, hf]

/-- Helper: the key column of the state after a hit-like move-to-front
of key `k` (shared by `get` hits and puts of present keys). -/
theorem keys_moveToFront {α : Type} (c : DnsCache α) (k : String)
    (e : CEntry α) (trace : List String)
    (hkeys : keysOf c = (recentDistinct trace).take c.capacity)
    (hmem : k ∈ keysOf c) :
    ((k, e) :: cacheEraseKey c.entries k).map Prod.fst
      = (recentDistinct (trace ++ [k])).take c.capacity := by
  have hndR : (recentDistinct trace).Nodup := dedupKeepFirst_nodup _
  have hkeys2 : c.entries.map Prod.fst
      = (recentDistinct trace).take c.capacity := hkeys
  rw [List.map_cons, keys_eraseKey, recentDistinct_snoc,
    filter_ne_eq_erase _ _ hndR, hkeys2]
  rw [hkeys] at hmem
  obtain ⟨m, hm⟩ : ∃ m, c.capacity = m + 1 := by
    refine ⟨c.capacity - 1, ?_⟩
    rcases Nat.eq_zero_or_pos c.capacity with h0 | h0
    · rw [h0] at hmem
      simp at hmem
    · omega
  rw [hm] at hmem ⊢
  rw [List.take_succ_cons, take_erase_succ _ _ _ hndR hmem]

/-- Helper: one cache operation preserves the LRU invariant — the key
column is the capacity-limited, most-recent-first list of distinct
touched keys — as long as nothing expired. -/
theorem cacheStep_inv {α : Type} (c : DnsCache α) (op : CacheOp α)
    (trace : List String)
    (hkeys : keysOf c = (recentDistinct trace).take c.capacity)
    (hok : (cacheStep c op).2.2 = true) :
    keysOf (cacheStep c op).1
      = (recentDistinct (trace ++ (cacheStep c op).2.1)).take c.capacity ∧
    (cacheStep c op).1.capacity = c.capacity := by
  have hndR : (recentDistinct trace).Nodup := dedupKeepFirst_nodup _
  cases op with
  | opGet k now =>
    rcases hf : cacheFind c k with _ | e
    · rw [cacheStep_get_none c k now hf]
      simpa using hkeys
    · by_cases hx : (now : Int) > e.expiry
      · rw [cacheStep_get_expired c k now e hf hx] at hok
        simp at hok
      · rw [cacheStep_get_live c k now e hf hx]
        have hmem : k ∈ keysOf c := cacheFind_some_mem c k e hf
        refine ⟨?_, ?_⟩
        · show keysOf (cacheGet c k now).2 = _
          rw [cacheGet_live c k now e hf hx]
          exact keys_moveToFront c k _ trace hkeys hmem
        · rw [cacheGet_live c k now e hf hx]
  | opPut k res ttl now neg =>
    rw [cacheStep_put]
    rcases hf : cacheFind c k with _ | e
    · have hnm : k ∉ keysOf c := (cacheFind_none_iff c k).1 hf
      have hlenk : c.entries.length = (keysOf c).length := by
        unfold keysOf
        rw [List.length_map]
      have hlen : (keysOf c).length
          = min c.capacity (recentDistinct trace).length := by
        rw [hkeys, List.length_take]
      rw [cachePut_new c k res ttl now neg hf]
      by_cases hful : ((k, (⟨res, (now : Int) + ttl, now, neg⟩ : CEntry α))
          :: c.entries).length > c.capacity
      · rw [if_pos hful]
        refine ⟨?_, rfl⟩
        show ((k, _) :: c.entries).dropLast.map Prod.fst = _
        rw [recentDistinct_snoc, filter_ne_eq_erase _ _ hndR]
        have hlc : c.entries.length = c.capacity := by
          rw [List.length_cons] at hful
          have h1 : c.entries.length ≤ c.capacity := by
            rw [hlenk, hlen]
            omega
          omega
        rcases Nat.eq_zero_or_pos c.capacity with h0 | h0
        · have hent : c.entries = [] := by
            rw [← List.length_eq_zero, hlc, h0]
          rw [hent, h0]
          rfl
        · obtain ⟨m, hm⟩ : ∃ m, c.capacity = m + 1 := ⟨c.capacity - 1, by omega⟩
          have hRlen : m + 1 ≤ (recentDistinct trace).length := by
            rw [hlenk, hlen, hm] at hlc
            omega
          have hXne : c.entries.map Prod.fst ≠ [] := by
            intro hX
            have hl := congrArg List.length hX
            rw [List.length_map, hlc, hm] at hl
            simp at hl
          rw [List.map_dropLast, List.map_cons,
            List.dropLast_cons_of_ne_nil hXne]
          have hkeys2 : c.entries.map Prod.fst
              = (recentDistinct trace).take c.capacity := hkeys
          rw [hkeys2, hm, take_dropLast_succ _ _ hRlen, List.take_succ_cons,
            take_erase_not_mem_succ _ _ _ (by rw [hkeys, hm] at hnm; exact hnm)]
      · rw [if_neg hful]
        refine ⟨?_, rfl⟩
        show ((k, _) :: c.entries).map Prod.fst = _
        rw [recentDistinct_snoc, filter_ne_eq_erase _ _ hndR]
        have hkeys2 : c.entries.map Prod.fst
            = (recentDistinct trace).take c.capacity := hkeys
        rw [List.map_cons, hkeys2]
        have hlc : c.entries.length < c.capacity := by
          rw [List.length_cons] at hful
          omega
        have hsm : (recentDistinct trace).length < c.capacity := by
          by_contra hge
          push_neg at hge
          rw [hlenk, hlen] at hlc
          omega
        have htak : (recentDistinct trace).take c.capacity
            = recentDistinct trace := List.take_of_length_le (by omega)
        have hkR : k ∉ recentDistinct trace := by
          rw [hkeys, htak] at hnm
          exact hnm
        rw [htak, List.erase_of_not_mem hkR]
        obtain ⟨m, hm⟩ : ∃ m, c.capacity = m + 1 := ⟨c.capacity - 1, by omega⟩
        rw [hm, List.take_succ_cons,
          List.take_of_length_le (by omega : (recentDistinct trace).length ≤ m)]
    · have hmem : k ∈ keysOf c := cacheFind_some_mem c k e hf
      rw [cachePut_existing c k res ttl now neg e hf]
      exact ⟨keys_moveToFront c k _ trace hkeys hmem, rfl⟩

/-- Helper: the LRU invariant holds across a whole run of operations. -/
theorem cacheRun_inv {α : Type} (ops : List (CacheOp α)) :
    ∀ (c : DnsCache α) (trace : List String),
    keysOf c = (recentDistinct trace).take c.capacity →
    (cacheRun c ops).2.2 = true →
    keysOf (cacheRun c ops).1
      = (recentDistinct (trace ++ (cacheRun c ops).2.1)).take c.capacity ∧
    (cacheRun c ops).1.capacity = c.capacity := by
  induction ops with
  | nil =>
    intro c trace hkeys _
    have h0 : cacheRun c ([] : List (CacheOp α)) = (c, [], true) := rfl
    rw [h0]
    exact ⟨by simpa using hkeys, rfl⟩
  | cons op rest ih =>
    intro c trace hkeys hok
    have hrun : cacheRun c (op :: rest)
        = ((cacheRun (cacheStep c op).1 rest).1,
           (cacheStep c op).2.1 ++ (cacheRun (cacheStep c op).1 rest).2.1,
           (cacheStep c op).2.2 && (cacheRun (cacheStep c op).1 rest).2.2) := rfl
    rw [hrun] at hok ⊢
    simp only [Bool.and_eq_true] at hok
    obtain ⟨hok1, hok2⟩ := hok
    obtain ⟨hstep, hcap⟩ := cacheStep_inv c op trace hkeys hok1
    have hrec := ih (cacheStep c op).1 (trace ++ (cacheStep c op).2.1)
      (by rw [hstep, hcap]) hok2
    rw [hcap] at hrec
    rw [List.append_assoc] at hrec
    exact hrec

/-- Helper: every key put during a run appears in the touch trace. -/
theorem cacheRun_trace_puts {α : Type} (ops : List (CacheOp α)) :
    ∀ (c : DnsCache α) (k : String),
    k ∈ ops.filterMap (fun op =>
      match op with
      | .opPut k2 _ _ _ _ => some k2
      | _ => none) →
    k ∈ (cacheRun c ops).2.1 := by
  induction ops with
  | nil =>
    intro c k h
    simp at h
  | cons op rest ih =>
    intro c k h
    have hrun : (cacheRun c (op :: rest)).2.1
        = (cacheStep c op).2.1 ++ (cacheRun (cacheStep c op).1 rest).2.1 := rfl
    rw [hrun, List.mem_append]
    cases op with
    | opGet k2 now =>
      simp only [List.filterMap_cons] at h
      exact Or.inr (ih _ k h)
    | opPut k2 res ttl now neg =>
      simp only [List.filterMap_cons] at h
      rcases List.mem_cons.1 h with h | h
      · refine Or.inl ?_
        rw [cacheStep_put]
        simp [h]
      · exact Or.inr (ih _ k h)

/-- C8: the LRU cache.  Starting from an empty cache, for any sequence
of put and get operations during which nothing expires, the key column
is exactly the capacity-limited list of distinct touched keys in
most-recently-touched-first order (a get hit counts as a touch); once
more distinct keys have been inserted than the capacity, the cache holds
exactly capacity entries; and a put of a fresh key into a full cache
evicts exactly the least-recently-used (tail) key. -/
theorem c8_lru {α : Type} (ops : List (CacheOp α)) (cap : Int)
    (hok : (cacheRun (newDNSCache α cap) ops).2.2 = true) :
    keysOf (cacheRun (newDNSCache α cap) ops).1
      = (recentDistinct (cacheRun (newDNSCache α cap) ops).2.1).take
          (newDNSCache α cap).capacity ∧
    ((newDNSCache α cap).capacity < (insertedKeys ops).length →
      (keysOf (cacheRun (newDNSCache α cap) ops).1).length
        = (newDNSCache α cap).capacity) ∧
    (∀ (c : DnsCache α) (k : String) (res : α) (ttl : Int) (now : Nat)
        (neg : Bool), cacheFind c k = none →
      (keysOf c).length = c.capacity → 1 ≤ c.capacity →
      keysOf (cachePutWithNegative c k res ttl now neg)
        = k :: (keysOf c).dropLast) := by
  have hbase : keysOf (newDNSCache α cap)
      = (recentDistinct []).take (newDNSCache α cap).capacity := by
    simp [newDNSCache, keysOf, recentDistinct, dedupKeepFirst]
  obtain ⟨h1, _⟩ := cacheRun_inv ops (newDNSCache α cap) [] hbase hok
  rw [List.nil_append] at h1
  refine ⟨h1, ?_, ?_⟩
  · intro hlt
    rw [h1, List.length_take]
    have hsub : ∀ k ∈ insertedKeys ops,
        k ∈ recentDistinct (cacheRun (newDNSCache α cap) ops).2.1 := by
      intro k hk
      unfold recentDistinct
      rw [dedupKeepFirst_mem, List.mem_reverse]
      apply cacheRun_trace_puts
      unfold insertedKeys at hk
      rw [dedupKeepFirst_mem] at hk
      exact hk
    have hnodup : (insertedKeys ops).Nodup := dedupKeepFirst_nodup _
    have hlen : (insertedKeys ops).length
        ≤ (recentDistinct (cacheRun (newDNSCache α cap) ops).2.1).length := by
      have hfin : (insertedKeys ops).toFinset
          ⊆ (recentDistinct (cacheRun (newDNSCache α cap) ops).2.1).toFinset := by
        intro a ha
        rw [List.mem_toFinset] at ha ⊢
        exact hsub a ha
      calc (insertedKeys ops).length
          = (insertedKeys ops).toFinset.card :=
            (List.toFinset_card_of_nodup hnodup).symm
        _ ≤ (recentDistinct (cacheRun (newDNSCache α cap) ops).2.1).toFinset.card :=
            Finset.card_le_card hfin
        _ ≤ (recentDistinct (cacheRun (newDNSCache α cap) ops).2.1).length :=
            List.toFinset_card_le _
    omega
  · intro c k res ttl now neg hf hfull hcap
    rw [cachePut_new c k res ttl now neg hf]
    have hlenk : c.entries.length = (keysOf c).length := by
      unfold keysOf
      rw [List.length_map]
    rw [if_pos (by rw [List.length_cons]; omega)]
    show ((k, _) :: c.entries).dropLast.map Prod.fst = _
    have hXne : c.entries.map Prod.fst ≠ [] := by
      intro hX
      have hl := congrArg List.length hX
      rw [List.length_map] at hl
      simp only [List.length_nil] at hl
      omega
    rw [List.map_dropLast, List.map_cons, List.dropLast_cons_of_ne_nil hXne]
    rfl

/-- C8 witness: the theorem on a four-operation run against a
capacity-2 cache: `k2` (the least recently touched after the `k1` get
hit) is evicted by the `k3` insertion and the cache is exactly full. -/
theorem c8_lru_witness :
    keysOf (cacheRun (newDNSCache Nat 2) sampleCacheOps).1 = ["k3", "k1"] ∧
    (keysOf (cacheRun (newDNSCache Nat 2) sampleCacheOps).1).length = 2 := by
  have h := c8_lru sampleCacheOps 2 (by decide)
  constructor
  · rw [h.1]
    rfl
  · exact h.2.1 (by decide)

/-! ### List helpers for the ranking proof (C7) -/

/-- Helper: counting after a `set`, in additive form. -/
theorem count_set_aux {α : Type} [DecidableEq α] :
    ∀ (l : List α) (i : Nat) (b d a : α), i < l.length →
    (l.set i b).count a + (if l.getD i d = a then 1 else 0)
      = l.count a + (if b = a then 1 else 0) := by
  intro l
  induction l with
  | nil =>
    intro i b d a hi
    simp at hi
  | cons x xs ih =>
    intro i b d a hi
    cases i with
    | zero =>
      simp only [List.set_cons_zero, List.getD_cons_zero, List.count_cons,
        beq_iff_eq]
      omega
    | succ n =>
      have hn : n < xs.length := by simpa using hi
      simp only [List.set_cons_succ, List.getD_cons_succ, List.count_cons,
        beq_iff_eq]
      have h2 := ih n b d a hn
      omega

/-- Helper: `getD` after a `set` at the same position. -/
theorem getD_set_self {α : Type} :
    ∀ (l : List α) (n : Nat) (a d : α), n < l.length →
    (l.set n a).getD n d = a := by
  intro l
  induction l with
  | nil =>
    intro n a d hn
    simp at hn
  | cons x xs ih =>
    intro n a d hn
    cases n with
    | zero => simp
    | succ k =>
      have hk : k < xs.length := by simpa using hn
      simp only [List.set_cons_succ, List.getD_cons_succ]
      exact ih k a d hk

/-- Helper: `getD` after a `set` at a different position. -/
theorem getD_set_ne {α : Type} :
    ∀ (l : List α) (n m : Nat) (a d : α), n ≠ m →
    (l.set n a).getD m d = l.getD m d := by
  intro l
  induction l with
  | nil =>
    intro n m a d h
    cases n <;> rfl
  | cons x xs ih =>
    intro n m a d h
    cases n with
    | zero =>
      cases m with
      | zero => exact absurd rfl h
      | succ j => simp
    | succ k =>
      cases m with
      | zero => simp
      | succ j =>
        simp only [List.set_cons_succ, List.getD_cons_succ]
        exact ih k j a d (by omega)

/-- Helper: `take` is unaffected by a `set` at or beyond its bound. -/
theorem take_set_le {α : Type} :
    ∀ (l : List α) (n m : Nat) (a : α), m ≤ n →
    (l.set n a).take m = l.take m := by
  intro l
  induction l with
  | nil =>
    intro n m a h
    cases n <;> rfl
  | cons x xs ih =>
    intro n m a h
    cases n with
    | zero =>
      have hm : m = 0 := by omega
      subst hm
      simp
    | succ k =>
      cases m with
      | zero => simp
      | succ j =>
        simp only [List.set_cons_succ, List.take_succ_cons]
        rw [ih k j a (by omega)]

/-- Helper: `drop` is unaffected by a `set` strictly below it. -/
theorem drop_set_lt {α : Type} :
    ∀ (l : List α) (n m : Nat) (a : α), n < m →
    (l.set n a).drop m = l.drop m := by
  intro l
  induction l with
  | nil =>
    intro n m a h
    cases n <;> rfl
  | cons x xs ih =>
    intro n m a h
    obtain ⟨j, rfl⟩ : ∃ j, m = j + 1 := ⟨m - 1, by omega⟩
    cases n with
    | zero => simp
    | succ k =>
      simp only [List.set_cons_succ, List.drop_succ_cons]
      exact ih k j a (by omega)

/-- Helper: a `set` below the bound commutes with `take`. -/
theorem set_take_comm {α : Type} :
    ∀ (l : List α) (n m : Nat) (a : α), n < m →
    (l.set n a).take m = (l.take m).set n a := by
  intro l
  induction l with
  | nil =>
    intro n m a h
    cases n <;> simp
  | cons x xs ih =>
    intro n m a h
    obtain ⟨j, rfl⟩ : ∃ j, m = j + 1 := ⟨m - 1, by omega⟩
    cases n with
    | zero => simp
    | succ k =>
      simp only [List.set_cons_succ, List.take_succ_cons]
      rw [ih k j a (by omega)]

/-- Helper: `getD` inside a strictly larger `take`. -/
theorem getD_take {α : Type} :
    ∀ (l : List α) (i p : Nat) (d : α), p < i →
    (l.take i).getD p d = l.getD p d := by
  intro l
  induction l with
  | nil =>
    intro i p d h
    rw [List.take_nil]
  | cons x xs ih =>
    intro i p d h
    obtain ⟨i2, rfl⟩ : ∃ i2, i = i2 + 1 := ⟨i - 1, by omega⟩
    cases p with
    | zero => simp
    | succ q =>
      simp only [List.take_succ_cons, List.getD_cons_succ]
      exact ih i2 q d (by omega)

/-- Helper: an in-range `getD` element is a member. -/
theorem getD_mem_of_lt {α : Type} :
    ∀ (l : List α) (n : Nat) (d : α), n < l.length → l.getD n d ∈ l := by
  intro l
  induction l with
  | nil =>
    intro n d h
    simp at h
  | cons x xs ih =>
    intro n d h
    cases n with
    | zero => simp
    | succ k =>
      have hk : k < xs.length := by simpa using h
      simp only [List.getD_cons_succ]
      exact List.mem_cons_of_mem x (ih k d hk)

/-- Helper: the element at a position beyond `i` lies in `drop (i+1)`. -/
theorem mem_drop_getD {α : Type} :
    ∀ (l : List α) (i j : Nat) (d : α), i < j → j < l.length →
    l.getD j d ∈ l.drop (i + 1) := by
  intro l
  induction l with
  | nil =>
    intro i j d h1 h2
    simp at h2
  | cons x xs ih =>
    intro i j d h1 h2
    obtain ⟨j2, rfl⟩ : ∃ j2, j = j2 + 1 := ⟨j - 1, by omega⟩
    have hj2 : j2 < xs.length := by simpa using h2
    cases i with
    | zero =>
      simp only [List.getD_cons_succ, List.drop_succ_cons, List.drop_zero]
      exact getD_mem_of_lt xs j2 d hj2
    | succ k =>
      simp only [List.getD_cons_succ, List.drop_succ_cons]
      exact ih k j2 d (by omega) hj2

/-- Helper: `drop` distributes over an append within the first part. -/
theorem drop_append_le {α : Type} (l1 l2 : List α) (n : Nat)
    (h : n ≤ l1.length) :
    (l1 ++ l2).drop n = l1.drop n ++ l2 := by
  rw [List.drop_append_eq_append_drop]
  have h0 : n - l1.length = 0 := by omega
  rw [h0, List.drop_zero]

/-- Helper: `take (j+1)` appends the element at `j`. -/
theorem take_succ_getD {α : Type} :
    ∀ (l : List α) (j : Nat) (d : α), j < l.length →
    l.take (j + 1) = l.take j ++ [l.getD j d] := by
  intro l
  induction l with
  | nil =>
    intro j d h
    simp at h
  | cons x xs ih =>
    intro j d h
    cases j with
    | zero => simp
    | succ n =>
      have hn : n < xs.length := by simpa using h
      simp only [List.take_succ_cons, List.getD_cons_succ]
      rw [ih n d hn]
      rfl

/-- Helper: `getD` through a `map`. -/
theorem getD_map_of_lt {α β : Type} (f : α → β) :
    ∀ (l : List α) (i : Nat) (d1 : α) (d2 : β), i < l.length →
    (l.map f).getD i d2 = f (l.getD i d1) := by
  intro l
  induction l with
  | nil =>
    intro i d1 d2 h
    simp at h
  | cons x xs ih =>
    intro i d1 d2 h
    cases i with
    | zero => simp
    | succ k =>
      have hk : k < xs.length := by simpa using h
      simp only [List.map_cons, List.getD_cons_succ]
      exact ih k d1 d2 hk

/-- Helper: the length of an in-range `take`. -/
theorem length_take_of_le {α : Type} (l : List α) (i : Nat)
    (h : i ≤ l.length) : (l.take i).length = i := by
  rw [List.length_take]
  exact inf_eq_left.2 h

/-- Helper: `swapIdx` preserves length. -/
theorem length_swapIdx {α : Type} (l : List α) (i j : Nat) (d : α) :
    (swapIdx l i j d).length = l.length := by
  show ((l.set i (l.getD j d)).set j (l.getD i d)).length = l.length
  rw [List.length_set, List.length_set]

/-- Helper: `swapIdx` places the second element at the first position. -/
theorem getD_swapIdx_fst {α : Type} (l : List α) (i j : Nat) (d : α)
    (hij : i ≠ j) (hi : i < l.length) :
    (swapIdx l i j d).getD i d = l.getD j d := by
  show ((l.set i (l.getD j d)).set j (l.getD i d)).getD i d = l.getD j d
  rw [getD_set_ne _ j i _ d (fun he => hij he.symm)]
  exact getD_set_self l i _ d hi

/-- Helper: `swapIdx` places the first element at the second position. -/
theorem getD_swapIdx_snd {α : Type} (l : List α) (i j : Nat) (d : α)
    (hj : j < l.length) :
    (swapIdx l i j d).getD j d = l.getD i d := by
  show ((l.set i (l.getD j d)).set j (l.getD i d)).getD j d = l.getD i d
  exact getD_set_self _ j _ d (by rw [List.length_set]; exact hj)

/-- Helper: `swapIdx` is a permutation. -/
theorem swapIdx_perm {α : Type} [DecidableEq α] (l : List α) (i j : Nat)
    (d : α) (hi : i < l.length) (hj : j < l.length) :
    (swapIdx l i j d).Perm l := by
  rw [List.perm_iff_count]
  intro a
  have h1 := count_set_aux (l.set i (l.getD j d)) j (l.getD i d) d a
    (by rw [List.length_set]; exact hj)
  have h2 := count_set_aux l i (l.getD j d) d a hi
  have h3 : (l.set i (l.getD j d)).getD j d = l.getD j d := by
    by_cases hij : i = j
    · subst hij
      exact getD_set_self l i _ d hi
    · exact getD_set_ne l i j _ d hij
  rw [h3] at h1
  show ((l.set i (l.getD j d)).set j (l.getD i d)).count a = l.count a
  omega

/-- Helper: the swap condition of the comparison loop is exactly the
strict lexicographic order on the sort keys, reversed. -/
theorem sw_iff (x y : NsWithRTT) :
    shouldSwap x y = true ↔ lexLt4 (nsKey y) (nsKey x) := by
  obtain ⟨nx, rx, fx, hx, cx⟩ := x
  obtain ⟨ny, ry, fy, hy, cy⟩ := y
  simp only [shouldSwap, nsKey, lexLt4]
  cases cx <;> cases cy <;> cases hx <;> cases hy <;>
    simp <;> omega

/-- Helper: the swap condition is asymmetric. -/
theorem shouldSwap_asymm (x y : NsWithRTT) (h : shouldSwap x y = true) :
    shouldSwap y x = false := by
  rw [sw_iff] at h
  cases hyx : shouldSwap y x with
  | false => rfl
  | true =>
    exfalso
    have h2 := (sw_iff y x).1 hyx
    unfold lexLt4 at h h2
    omega

/-- Helper: an element never swapped against stays unswapped against
anything the pivot was swapped for. -/
theorem shouldSwap_trans_neg (x y z : NsWithRTT)
    (h1 : shouldSwap x y = true) (h2 : shouldSwap x z = false) :
    shouldSwap y z = false := by
  rw [sw_iff] at h1
  cases hyz : shouldSwap y z with
  | false => rfl
  | true =>
    exfalso
    have h3 := (sw_iff y z).1 hyz
    have h4 : ¬ lexLt4 (nsKey z) (nsKey x) := by
      intro hc
      rw [← sw_iff] at hc
      rw [h2] at hc
      exact Bool.false_ne_true hc
    unfold lexLt4 at h1 h3 h4
    omega

/-- Helper: `mkNsStat` keeps the endpoint name. -/
theorem mkNsStat_ns (m : List (String × RttStats)) (now : Nat)
    (n : String) : (mkNsStat m now n).ns = n := by
  unfold mkNsStat
  cases lookupStats m n <;> rfl

/-- Helper: not being lexicographically below unpacks into the four
claim-level ordering conditions. -/
theorem notLt_conds (x y : NsWithRTT)
    (h : ¬ lexLt4 (nsKey y) (nsKey x)) : nsLeConds x y := by
  obtain ⟨nx, rx, fx, hx, cx⟩ := x
  obtain ⟨ny, ry, fy, hy, cy⟩ := y
  unfold nsLeConds
  simp only [nsKey, lexLt4] at h
  cases cx <;> cases cy <;> cases hx <;> cases hy <;> simp at h ⊢ <;> omega

/-- Helper: the inner comparison loop preserves length, the prefix
before the pivot, and the multiset, and leaves the pivot position not
swap-preferred against everything to its right. -/
theorem selInner_spec {α : Type} [DecidableEq α] (sw : α → α → Bool)
    (d : α)
    (hasym : ∀ x y, sw x y = true → sw y x = false)
    (htrans : ∀ x y z, sw x y = true → sw x z = false → sw y z = false) :
    ∀ (fuel : Nat) (l : List α) (i j : Nat), i < j →
    l.length ≤ fuel + j →
    (∀ x ∈ (l.take j).drop (i + 1), sw (l.getD i d) x = false) →
    (selInner sw d fuel l i j).length = l.length ∧
    (selInner sw d fuel l i j).take i = l.take i ∧
    (selInner sw d fuel l i j).Perm l ∧
    (∀ x ∈ (selInner sw d fuel l i j).drop (i + 1),
      sw ((selInner sw d fuel l i j).getD i d) x = false) := by
  intro fuel
  induction fuel with
  | zero =>
    intro l i j hij hfuel hinv
    have hret : selInner sw d 0 l i j = l := rfl
    rw [hret]
    refine ⟨rfl, rfl, List.Perm.refl l, ?_⟩
    have htk : l.take j = l := List.take_of_length_le (by omega)
    intro x hx
    exact hinv x (by rw [htk]; exact hx)
  | succ fuel ih =>
    intro l i j hij hfuel hinv
    by_cases hjl : j < l.length
    · have hstep : selInner sw d (fuel + 1) l i j
          = selInner sw d fuel
              (if sw (l.getD i d) (l.getD j d) then swapIdx l i j d else l)
              i (j + 1) := by
        simp only [selInner]
        rw [if_pos hjl]
      by_cases hsw : sw (l.getD i d) (l.getD j d) = true
      · rw [hstep, if_pos hsw]
        have hi : i < l.length := by omega
        have hlen2 : (swapIdx l i j d).length = l.length :=
          length_swapIdx l i j d
        have hgdi : (swapIdx l i j d).getD i d = l.getD j d :=
          getD_swapIdx_fst l i j d (by omega) hi
        have hgdj : (swapIdx l i j d).getD j d = l.getD i d :=
          getD_swapIdx_snd l i j d hjl
        have hinv2 : ∀ x ∈ ((swapIdx l i j d).take (j + 1)).drop (i + 1),
            sw ((swapIdx l i j d).getD i d) x = false := by
          have h1 : (swapIdx l i j d).take j
              = (l.take j).set i (l.getD j d) := by
            show ((l.set i (l.getD j d)).set j (l.getD i d)).take j
              = (l.take j).set i (l.getD j d)
            rw [take_set_le (l.set i (l.getD j d)) j j (l.getD i d)
              (le_refl j)]
            exact set_take_comm l i j (l.getD j d) hij
          have hdecomp : ((swapIdx l i j d).take (j + 1)).drop (i + 1)
              = ((l.take j).drop (i + 1)) ++ [l.getD i d] := by
            rw [take_succ_getD (swapIdx l i j d) j d
              (by rw [hlen2]; exact hjl)]
            rw [hgdj, h1]
            rw [drop_append_le ((l.take j).set i (l.getD j d))
              [l.getD i d] (i + 1)
              (by rw [List.length_set, length_take_of_le l j (by omega)];
                  omega)]
            rw [drop_set_lt (l.take j) i (i + 1) (l.getD j d) (by omega)]
          rw [hdecomp, hgdi]
          intro x hx
          rcases List.mem_append.1 hx with hx2 | hx2
          · exact htrans (l.getD i d) (l.getD j d) x hsw (hinv x hx2)
          · have hx3 : x = l.getD i d := by simpa using hx2
            rw [hx3]
            exact hasym _ _ hsw
        obtain ⟨r1, r2, r3, r4⟩ := ih (swapIdx l i j d) i (j + 1)
          (by omega) (by rw [hlen2]; omega) hinv2
        refine ⟨?_, ?_, ?_, r4⟩
        · rw [r1, hlen2]
        · rw [r2]
          show ((l.set i (l.getD j d)).set j (l.getD i d)).take i = l.take i
          rw [take_set_le (l.set i (l.getD j d)) j i (l.getD i d)
            (by omega)]
          rw [take_set_le l i i (l.getD j d) (le_refl i)]
        · exact r3.trans (swapIdx_perm l i j d hi hjl)
      · have hswf : sw (l.getD i d) (l.getD j d) = false := by
          cases hc : sw (l.getD i d) (l.getD j d)
          · rfl
          · exact absurd hc hsw
        rw [hstep, if_neg (by rw [hswf]; exact Bool.false_ne_true)]
        have hinv2 : ∀ x ∈ (l.take (j + 1)).drop (i + 1),
            sw (l.getD i d) x = false := by
          rw [take_succ_getD l j d hjl]
          rw [drop_append_le (l.take j) [l.getD j d] (i + 1)
            (by rw [length_take_of_le l j (by omega)]; omega)]
          intro x hx
          rcases List.mem_append.1 hx with hx2 | hx2
          · exact hinv x hx2
          · have hx3 : x = l.getD j d := by simpa using hx2
            rw [hx3]
            exact hswf
        exact ih l i (j + 1) (by omega) (by omega) hinv2
    · have hret : selInner sw d (fuel + 1) l i j = l := by
        simp only [selInner]
        rw [if_neg hjl]
      rw [hret]
      refine ⟨rfl, rfl, List.Perm.refl l, ?_⟩
      have htk : l.take j = l := List.take_of_length_le (by omega)
      intro x hx
      exact hinv x (by rw [htk]; exact hx)

/-- Helper: the per-position minimality of an already placed position
survives a pass that fixes the prefix and permutes the rest. -/
theorem inv_transport {α : Type} (sw : α → α → Bool) (d : α)
    (l r : List α) (i : Nat) (hi : i ≤ l.length)
    (htake : r.take i = l.take i) (hperm : r.Perm l)
    (p : Nat) (hp : p < i)
    (hinvp : ∀ x ∈ l.drop (p + 1), sw (l.getD p d) x = false) :
    ∀ x ∈ r.drop (p + 1), sw (r.getD p d) x = false := by
  have hlen : r.length = l.length := hperm.length_eq
  have hgd : r.getD p d = l.getD p d := by
    rw [← getD_take r i p d hp, htake, getD_take l i p d hp]
  have hpermdrop : (r.drop i).Perm (l.drop i) := by
    have h2 : (r.take i ++ r.drop i).Perm (l.take i ++ l.drop i) := by
      rw [List.take_append_drop, List.take_append_drop]
      exact hperm
    rw [htake] at h2
    exact (List.perm_append_left_iff (l.take i)).1 h2
  have hdr : r.drop (p + 1) = (r.take i).drop (p + 1) ++ r.drop i := by
    have h0 : (r.take i ++ r.drop i).drop (p + 1)
        = (r.take i).drop (p + 1) ++ r.drop i :=
      drop_append_le (r.take i) (r.drop i) (p + 1)
        (by rw [length_take_of_le r i (by omega)]; omega)
    rw [List.take_append_drop] at h0
    exact h0
  have hdl : l.drop (p + 1) = (l.take i).drop (p + 1) ++ l.drop i := by
    have h0 : (l.take i ++ l.drop i).drop (p + 1)
        = (l.take i).drop (p + 1) ++ l.drop i :=
      drop_append_le (l.take i) (l.drop i) (p + 1)
        (by rw [length_take_of_le l i hi]; omega)
    rw [List.take_append_drop] at h0
    exact h0
  intro x hx
  rw [hgd]
  apply hinvp
  rw [hdl, List.mem_append]
  rw [hdr, List.mem_append] at hx
  rcases hx with hx | hx
  · left
    rwa [htake] at hx
  · right
    exact hpermdrop.mem_iff.1 hx

/-- Helper: the outer loop permutes the list and leaves every position
not swap-preferred against everything to its right. -/
theorem selOuter_spec {α : Type} [DecidableEq α] (sw : α → α → Bool)
    (d : α)
    (hasym : ∀ x y, sw x y = true → sw y x = false)
    (htrans : ∀ x y z, sw x y = true → sw x z = false → sw y z = false) :
    ∀ (fuel : Nat) (l : List α) (i : Nat), l.length ≤ fuel + i + 1 →
    (∀ p, p < i → ∀ x ∈ l.drop (p + 1), sw (l.getD p d) x = false) →
    (selOuter sw d fuel l i).length = l.length ∧
    (selOuter sw d fuel l i).Perm l ∧
    (∀ p, ∀ x ∈ (selOuter sw d fuel l i).drop (p + 1),
      sw ((selOuter sw d fuel l i).getD p d) x = false) := by
  intro fuel
  induction fuel with
  | zero =>
    intro l i hfuel hinv
    have hret : selOuter sw d 0 l i = l := rfl
    rw [hret]
    refine ⟨rfl, List.Perm.refl l, ?_⟩
    intro p x hx
    by_cases hp : p < i
    · exact hinv p hp x hx
    · exfalso
      have hnil : l.drop (p + 1) = [] := List.drop_eq_nil_of_le (by omega)
      rw [hnil] at hx
      exact (List.not_mem_nil x) hx
  | succ fuel ih =>
    intro l i hfuel hinv
    by_cases hil : i + 1 < l.length
    · have hstep : selOuter sw d (fuel + 1) l i
          = selOuter sw d fuel (selInner sw d l.length l i (i + 1))
              (i + 1) := by
        simp only [selOuter]
        rw [if_pos hil]
      rw [hstep]
      obtain ⟨w1, w2, w3, w4⟩ := selInner_spec sw d hasym htrans
        l.length l i (i + 1) (by omega) (by omega)
        (by
          intro x hx
          exfalso
          have hnil : (l.take (i + 1)).drop (i + 1) = [] :=
            List.drop_eq_nil_of_le
              (by rw [List.length_take]; exact inf_le_left)
          rw [hnil] at hx
          exact (List.not_mem_nil x) hx)
      have hinv2 : ∀ p, p < i + 1 →
          ∀ x ∈ (selInner sw d l.length l i (i + 1)).drop (p + 1),
          sw ((selInner sw d l.length l i (i + 1)).getD p d) x = false := by
        intro p hp
        by_cases hpi : p < i
        · exact inv_transport sw d l (selInner sw d l.length l i (i + 1)) i
            (by omega) w2 w3 p hpi (hinv p hpi)
        · have hpe : p = i := by omega
          subst hpe
          exact w4
      obtain ⟨z1, z2, z3⟩ := ih (selInner sw d l.length l i (i + 1))
        (i + 1) (by rw [w1]; omega) hinv2
      exact ⟨by rw [z1, w1], z2.trans w3, z3⟩
    · have hret : selOuter sw d (fuel + 1) l i = l := by
        simp only [selOuter]
        rw [if_neg hil]
      rw [hret]
      refine ⟨rfl, List.Perm.refl l, ?_⟩
      intro p x hx
      by_cases hp : p < i
      · exact hinv p hp x hx
      · exfalso
        have hnil : l.drop (p + 1) = [] := List.drop_eq_nil_of_le (by omega)
        rw [hnil] at hx
        exact (List.not_mem_nil x) hx

/-- C7: `sortNameserversByRTT` returns a permutation of its input, and
for every pair of positions `i < j` of the output, the stat records
rebuilt from the same RTT-map snapshot are ordered: an open-circuit
endpoint (failures ≥ 5 and now − lastFailed < 60 s) never precedes a
non-open one, failure counts ascend within a circuit group, endpoints
with recorded RTT statistics precede those without at equal failure
counts, and average RTT ascends when both have statistics. -/
theorem c7_sort (m : List (String × RttStats)) (now : Nat)
    (ns : List String) :
    (sortNameserversByRTT m now ns).Perm ns ∧
    (∀ i j : Nat, i < j → j < (sortNameserversByRTT m now ns).length →
      nsOrderedAt m now (sortNameserversByRTT m now ns) i j) := by
  by_cases hle : ns.length ≤ 1
  · have hout : sortNameserversByRTT m now ns = ns := by
      simp only [sortNameserversByRTT]
      rw [if_pos hle]
    rw [hout]
    refine ⟨List.Perm.refl ns, ?_⟩
    intro i j hij hj
    exfalso
    omega
  · have hout : sortNameserversByRTT m now ns
        = (selOuter shouldSwap nsDefault (ns.map (mkNsStat m now)).length
            (ns.map (mkNsStat m now)) 0).map (fun s => s.ns) := by
      simp only [sortNameserversByRTT]
      rw [if_neg hle]
    obtain ⟨w1, w2, w3⟩ := selOuter_spec shouldSwap nsDefault
      shouldSwap_asymm shouldSwap_trans_neg
      (ns.map (mkNsStat m now)).length (ns.map (mkNsStat m now)) 0
      (by omega)
      (by intro p hp; exact absurd hp (Nat.not_lt_zero p))
    rw [hout]
    set S := selOuter shouldSwap nsDefault (ns.map (mkNsStat m now)).length
      (ns.map (mkNsStat m now)) 0
    have hrec : ∀ s ∈ S, mkNsStat m now s.ns = s := by
      intro s hs
      have hs2 : s ∈ ns.map (mkNsStat m now) := w2.subset hs
      obtain ⟨n, hn, he⟩ := List.mem_map.1 hs2
      rw [← he, mkNsStat_ns]
    constructor
    · have h1 := w2.map (fun s : NsWithRTT => s.ns)
      have h2 : (ns.map (mkNsStat m now)).map (fun s : NsWithRTT => s.ns)
          = ns := by
        rw [List.map_map]
        have h3 : ∀ n ∈ ns,
            ((fun s : NsWithRTT => s.ns) ∘ mkNsStat m now) n = id n :=
          fun n _ => mkNsStat_ns m now n
        rw [List.map_congr_left h3, List.map_id]
      rw [h2] at h1
      exact h1
    · intro i j hij hj
      rw [List.length_map] at hj
      have hilt : i < S.length := by omega
      have hmi : (S.map (fun s => s.ns)).getD i "" = (S.getD i nsDefault).ns :=
        getD_map_of_lt (fun s : NsWithRTT => s.ns) S i nsDefault "" hilt
      have hmj : (S.map (fun s => s.ns)).getD j "" = (S.getD j nsDefault).ns :=
        getD_map_of_lt (fun s : NsWithRTT => s.ns) S j nsDefault "" hj
      have hxi : mkNsStat m now ((S.map (fun s => s.ns)).getD i "")
          = S.getD i nsDefault := by
        rw [hmi]
        exact hrec _ (getD_mem_of_lt S i nsDefault hilt)
      have hxj : mkNsStat m now ((S.map (fun s => s.ns)).getD j "")
          = S.getD j nsDefault := by
        rw [hmj]
        exact hrec _ (getD_mem_of_lt S j nsDefault hj)
      have hmem : S.getD j nsDefault ∈ S.drop (i + 1) :=
        mem_drop_getD S i j nsDefault hij hj
      have hfalse := w3 i (S.getD j nsDefault) hmem
      have hnot : ¬ lexLt4 (nsKey (S.getD j nsDefault))
          (nsKey (S.getD i nsDefault)) := by
        intro hc
        rw [← sw_iff] at hc
        rw [hfalse] at hc
        exact Bool.false_ne_true hc
      have hconds := notLt_conds (S.getD i nsDefault) (S.getD j nsDefault)
        hnot
      unfold nsOrderedAt
      rw [hxi, hxj]
      exact hconds

/-- C7 witness: the theorem at the sample RTT map and four endpoints
(`b` and `a` healthy with statistics, `d` unknown, `c` with an open
circuit), at positions 0 and 3 of the output. -/
theorem c7_sort_witness :
    (sortNameserversByRTT sampleRttMap 1000 ["a", "c", "b", "d"]).Perm
      ["a", "c", "b", "d"] ∧
    nsOrderedAt sampleRttMap 1000
      (sortNameserversByRTT sampleRttMap 1000 ["a", "c", "b", "d"]) 0 3 :=
  ⟨(c7_sort sampleRttMap 1000 ["a", "c", "b", "d"]).1,
   (c7_sort sampleRttMap 1000 ["a", "c", "b", "d"]).2 0 3 (by decide)
     (by decide)⟩

/-- C10 witness: the theorem at the empty zone and the domain
`"EXAMPLE."`. -/
theorem c10_addns_empty_witness :
    (addNS zEmpty "EXAMPLE." "").records = zEmpty.records ∧
    ("EXAMPLE.".toLower ∈ getNameList (addNS zEmpty "EXAMPLE." "") ↔
      ¬ ("EXAMPLE.".toLower = "." ∨ "EXAMPLE.".toLower = "arpa." ∨
         "EXAMPLE.".toLower.endsWith ".arpa." = true)) := by
  have h := c10_addns_empty zEmpty "EXAMPLE."
  exact ⟨h.1, h.2.2.2.2⟩

end Allxfr
